import Mathlib

/-!
Verification of desmod's `Pool`/`PriorityPool` (src/desmod/pool.py) and
`Queue`/`PriorityQueue` (src/desmod/queue.py).

The Python classes keep their waiter collections either as plain lists or as
binary heaps manipulated with the CPython `heapq` module (`heappush`,
`heappop`, `heapify`).  We first embed `heapq`'s list-based algorithms
(`_siftdown`, `_siftup`, `heappush`, `heappop`, `heapify`) over `List α`
with an explicit boolean comparison `lt` standing for the elements'
`__lt__`, and verify the heap facts the container claims depend on.
Amounts and levels are modelled as exact rationals (`ℚ`), covering both the
`int` and idealized `float` uses of the Python code; an infinite capacity
(`float('inf')`, the constructors' default) is modelled as `none`.
-/

deriving instance DecidableEq for Except

namespace Desmod

open List

/-- `le lt x y` means `y < x` is false: the non-strict order derived from
the strict comparison `lt` (Python's `not (y < x)`). -/
def le {α : Type} (lt : α → α → Bool) (x y : α) : Prop := lt y x = false

/-- `heapq`'s `_siftdown` loop: bubble the carried `newitem` up from `pos`
toward `startpos`, shifting larger parents down.  The final write
`heap[pos] = newitem` of the Python code is the non-recursive branch. -/
def siftdownGo {α : Type} [Inhabited α] (lt : α → α → Bool) (startpos : Nat)
    (newitem : α) (heap : List α) (pos : Nat) : List α :=
  if _h : startpos < pos then
    let parentpos := (pos - 1) / 2
    let parent := heap.getD parentpos default
    if lt newitem parent then
      siftdownGo lt startpos newitem (heap.set pos parent) parentpos
    else
      heap.set pos newitem
  else
    heap.set pos newitem
termination_by pos
decreasing_by omega

/-- `heapq._siftdown(heap, startpos, pos)`: reads `newitem = heap[pos]`
then runs the bubble-up loop. -/
def siftdown {α : Type} [Inhabited α] (lt : α → α → Bool) (heap : List α)
    (startpos pos : Nat) : List α :=
  siftdownGo lt startpos (heap.getD pos default) heap pos

/-- `heapq.heappush(heap, item)`: `heap.append(item)` followed by
`_siftdown(heap, 0, len(heap)-1)`. -/
def heappush {α : Type} [Inhabited α] (lt : α → α → Bool) (heap : List α)
    (item : α) : List α :=
  siftdown lt (heap ++ [item]) 0 heap.length

/-- The loop of `heapq._siftup`: move the hole at `pos` down to a leaf,
always toward a minimal child; returns the shifted array and the final
hole position. -/
def siftupGo {α : Type} [Inhabited α] (lt : α → α → Bool) (heap : List α)
    (pos : Nat) : List α × Nat :=
  if h : 2 * pos + 1 < heap.length then
    let childpos := 2 * pos + 1
    let rightpos := childpos + 1
    let childpos :=
      if rightpos < heap.length ∧
          lt (heap.getD childpos default) (heap.getD rightpos default) = false
      then rightpos else childpos
    siftupGo lt (heap.set pos (heap.getD childpos default)) childpos
  else
    (heap, pos)
termination_by heap.length - pos
decreasing_by
  simp only [List.length_set]
  split <;> omega

/-- `heapq._siftup(heap, pos)`: sift the hole to a leaf, write the saved
item there, then `_siftdown(heap, pos, finalpos)`. -/
def siftup {α : Type} [Inhabited α] (lt : α → α → Bool) (heap : List α)
    (pos : Nat) : List α :=
  let newitem := heap.getD pos default
  let p := siftupGo lt heap pos
  siftdown lt (p.1.set p.2 newitem) pos p.2

/-- `heapq.heappop(heap)`: pop the last element; if the heap is still
non-empty, move it to the root and `_siftup(heap, 0)`.  `none` models the
`IndexError` on an empty list. -/
def heappop {α : Type} [Inhabited α] (lt : α → α → Bool) (heap : List α) :
    Option (α × List α) :=
  match heap.getLast? with
  | none => none
  | some lastelt =>
    let rest := heap.dropLast
    if rest.isEmpty then some (lastelt, rest)
    else some (rest.getD 0 default, siftup lt (rest.set 0 lastelt) 0)

/-- The descending loop of `heapq.heapify`: `_siftup(x, i)` for
`i = n/2 - 1, …, 0`. -/
def heapifyGo {α : Type} [Inhabited α] (lt : α → α → Bool) (heap : List α) :
    Nat → List α
  | 0 => heap
  | i + 1 => heapifyGo lt (siftup lt heap i) i

/-- `heapq.heapify(x)`. -/
def heapify {α : Type} [Inhabited α] (lt : α → α → Bool) (heap : List α) :
    List α :=
  heapifyGo lt heap (heap.length / 2)

/-- The `heapq` binary-heap invariant: every non-root entry is not below
its parent at index `(j-1)/2`. -/
def IsHeap {α : Type} [Inhabited α] (lt : α → α → Bool) (l : List α) : Prop :=
  ∀ j, j < l.length → 0 < j →
    lt (l.getD j default) (l.getD ((j - 1) / 2) default) = false

instance {α : Type} [Inhabited α] (lt : α → α → Bool) (l : List α) :
    Decidable (IsHeap lt l) :=
  inferInstanceAs (Decidable (∀ j, j < l.length → 0 < j →
    lt (l.getD j default) (l.getD ((j - 1) / 2) default) = false))

theorem getD_set_self {α : Type} (l : List α) (i : Nat) (x d : α)
    (h : i < l.length) : (l.set i x).getD i d = x := by
  simp [List.getD, List.getElem?_set_self, h]

theorem getD_set_ne {α : Type} (l : List α) (i j : Nat) (x d : α)
    (h : i ≠ j) : (l.set i x).getD j d = l.getD j d := by
  simp [List.getD, List.getElem?_set_ne h]

theorem set_getD_self {α : Type} (l : List α) (i : Nat) (d : α)
    (h : i < l.length) : l.set i (l.getD i d) = l := by
  apply List.ext_getElem?
  intro j
  by_cases hj : i = j
  · subst hj
    rw [List.getElem?_set_self (by omega), List.getD_eq_getElem l d h,
      List.getElem?_eq_getElem h]
  · rw [List.getElem?_set_ne hj]

theorem length_siftdownGo {α : Type} [Inhabited α] (lt : α → α → Bool)
    (startpos : Nat) (newitem : α) (heap : List α) (pos : Nat) :
    (siftdownGo lt startpos newitem heap pos).length = heap.length := by
  induction pos using Nat.strong_induction_on generalizing heap with
  | _ pos ih =>
    rw [siftdownGo]
    split
    · dsimp only
      split
      · rw [ih ((pos - 1) / 2) (by omega)]
        simp
      · simp
    · simp

theorem siftupGo_spec {α : Type} [Inhabited α] (lt : α → α → Bool)
    (heap : List α) (pos : Nat) (h : pos < heap.length) :
    (siftupGo lt heap pos).1.length = heap.length ∧
    (siftupGo lt heap pos).2 < heap.length ∧
    heap.length ≤ 2 * (siftupGo lt heap pos).2 + 1 := by
  generalize hm : heap.length - pos = m
  induction m using Nat.strong_induction_on generalizing heap pos with
  | _ m ih =>
    rw [siftupGo]
    split
    · dsimp only
      split
      · rename_i hc hr
        have := ih ((heap.set pos (heap.getD (2 * pos + 1 + 1) default)).length
            - (2 * pos + 1 + 1)) (by simp only [List.length_set]; omega)
          (heap.set pos (heap.getD (2 * pos + 1 + 1) default)) (2 * pos + 1 + 1)
          (by simp only [List.length_set]; omega) rfl
        simp only [List.length_set] at this
        exact ⟨this.1, this.2.1, this.2.2⟩
      · rename_i hc hr
        have := ih ((heap.set pos (heap.getD (2 * pos + 1) default)).length
            - (2 * pos + 1)) (by simp only [List.length_set]; omega)
          (heap.set pos (heap.getD (2 * pos + 1) default)) (2 * pos + 1)
          (by simp only [List.length_set]; omega) rfl
        simp only [List.length_set] at this
        exact ⟨this.1, this.2.1, this.2.2⟩
    · exact ⟨rfl, h, by omega⟩

theorem length_siftup {α : Type} [Inhabited α] (lt : α → α → Bool)
    (heap : List α) (pos : Nat) (h : pos < heap.length) :
    (siftup lt heap pos).length = heap.length := by
  unfold siftup siftdown
  dsimp only
  have hs := siftupGo_spec lt heap pos h
  rw [length_siftdownGo]
  simp [hs.1]

theorem length_heappush {α : Type} [Inhabited α] (lt : α → α → Bool)
    (heap : List α) (item : α) :
    (heappush lt heap item).length = heap.length + 1 := by
  unfold heappush siftdown
  rw [length_siftdownGo]
  simp

theorem length_heappop {α : Type} [Inhabited α] (lt : α → α → Bool)
    (heap : List α) (r : α) (rest : List α)
    (h : heappop lt heap = some (r, rest)) :
    rest.length + 1 = heap.length := by
  unfold heappop at h
  match hl : heap.getLast? with
  | none => rw [hl] at h; exact absurd h (by simp)
  | some lastelt =>
    rw [hl] at h
    dsimp only at h
    have hne : heap ≠ [] := by rintro rfl; simp at hl
    have hlen : heap.dropLast.length + 1 = heap.length := by
      have : 0 < heap.length := List.length_pos.mpr hne
      simp only [List.length_dropLast]
      omega
    by_cases he : heap.dropLast.isEmpty
    · simp only [he, if_true] at h
      cases h
      exact hlen
    · rw [if_neg he] at h
      simp only [Option.some.injEq, Prod.mk.injEq] at h
      have h2 := h.2
      have hdne : 0 < heap.dropLast.length :=
        List.length_pos.mpr (by simpa using he)
      rw [← h2, length_siftup lt _ 0 (by simp only [List.length_set]; omega)]
      simp only [List.length_set]
      exact hlen

theorem cons_set_swap_perm {α : Type} (t : List α) (k : Nat) (a b : α)
    (hk : k < t.length) : a :: t.set k b ~ b :: t.set k a := by
  induction t generalizing k with
  | nil => simp at hk
  | cons x t2 ih =>
    cases k with
    | zero => simpa using List.Perm.swap b a t2
    | succ k =>
      simp only [List.set_cons_succ]
      calc a :: x :: t2.set k b ~ x :: a :: t2.set k b := List.Perm.swap x a _
        _ ~ x :: b :: t2.set k a :=
          List.Perm.cons x (ih k (by simpa using hk))
        _ ~ b :: x :: t2.set k a := List.Perm.swap b x _

theorem set_set_swap_perm {α : Type} (l : List α) (i j : Nat) (a b : α)
    (hi : i < l.length) (hj : j < l.length) (hij : i ≠ j) :
    (l.set i a).set j b ~ (l.set i b).set j a := by
  induction l generalizing i j with
  | nil => simp at hi
  | cons c t ih =>
    cases i with
    | zero =>
      cases j with
      | zero => exact absurd rfl hij
      | succ j =>
        simp only [List.set_cons_zero, List.set_cons_succ]
        exact cons_set_swap_perm t j a b (by simpa using hj)
    | succ i =>
      cases j with
      | zero =>
        simp only [List.set_cons_zero, List.set_cons_succ]
        exact cons_set_swap_perm t i b a (by simpa using hi)
      | succ j =>
        simp only [List.set_cons_succ]
        exact List.Perm.cons c
          (ih i j (by simpa using hi) (by simpa using hj) (by omega))

theorem set_set_collapse_perm {α : Type} (l : List α) (i j : Nat) (d x : α)
    (hi : i < l.length) (hj : j < l.length) :
    (l.set i (l.getD j d)).set j x ~ l.set i x := by
  by_cases hij : i = j
  · subst hij
    rw [List.set_set]
  · calc (l.set i (l.getD j d)).set j x
        ~ (l.set i x).set j (l.getD j d) :=
          set_set_swap_perm l i j (l.getD j d) x hi hj hij
      _ = (l.set i x).set j ((l.set i x).getD j d) := by
          rw [getD_set_ne l i j x d hij]
      _ = l.set i x := set_getD_self _ j d (by simpa using hj)

theorem getD_append_lt {α : Type} (l l2 : List α) (j : Nat) (d : α)
    (h : j < l.length) : (l ++ l2).getD j d = l.getD j d := by
  simp [List.getD, List.getElem?_append_left h]

theorem getD_append_len {α : Type} (l : List α) (x d : α) :
    (l ++ [x]).getD l.length d = x := by
  simp [List.getD, List.getElem?_append_right (Nat.le_refl _)]

theorem siftdownGo_perm {α : Type} [Inhabited α] (lt : α → α → Bool)
    (startpos : Nat) (newitem : α) (heap : List α) (pos : Nat)
    (h : pos < heap.length) :
    siftdownGo lt startpos newitem heap pos ~ heap.set pos newitem := by
  induction pos using Nat.strong_induction_on generalizing heap with
  | _ pos ih =>
    rw [siftdownGo]
    split
    · dsimp only
      split
      · rename_i hsp hlt
        refine Perm.trans
          (ih ((pos - 1) / 2) (by omega) _ (by simp only [List.length_set]; omega))
          ?_
        exact set_set_collapse_perm heap pos ((pos - 1) / 2) default newitem h
          (by omega)
      · exact Perm.refl _
    · exact Perm.refl _

theorem siftupGo_perm {α : Type} [Inhabited α] (lt : α → α → Bool)
    (heap : List α) (pos : Nat) (h : pos < heap.length) (ni : α) :
    (siftupGo lt heap pos).1.set (siftupGo lt heap pos).2 ni
      ~ heap.set pos ni := by
  generalize hm : heap.length - pos = m
  induction m using Nat.strong_induction_on generalizing heap pos with
  | _ m ih =>
    rw [siftupGo]
    split
    · dsimp only
      split
      · rename_i hc hr
        refine Perm.trans (ih ((heap.set pos (heap.getD (2 * pos + 1 + 1)
            default)).length - (2 * pos + 1 + 1))
            (by simp only [List.length_set]; omega) _ (2 * pos + 1 + 1)
            (by simp only [List.length_set]; omega) rfl) ?_
        exact set_set_collapse_perm heap pos (2 * pos + 1 + 1) default ni h hr.1
      · rename_i hc hr
        refine Perm.trans (ih ((heap.set pos (heap.getD (2 * pos + 1)
            default)).length - (2 * pos + 1))
            (by simp only [List.length_set]; omega) _ (2 * pos + 1)
            (by simp only [List.length_set]; omega) rfl) ?_
        exact set_set_collapse_perm heap pos (2 * pos + 1) default ni h hc
    · exact Perm.refl _

theorem siftup_perm {α : Type} [Inhabited α] (lt : α → α → Bool)
    (heap : List α) (pos : Nat) (h : pos < heap.length) :
    siftup lt heap pos ~ heap := by
  unfold siftup siftdown
  dsimp only
  have hs := siftupGo_spec lt heap pos h
  have h2 : (siftupGo lt heap pos).2 < (siftupGo lt heap pos).1.length := by
    rw [hs.1]; exact hs.2.1
  rw [getD_set_self _ _ _ _ h2]
  refine Perm.trans (siftdownGo_perm lt pos (heap.getD pos default) _ _
    (by simp only [List.length_set]; exact h2)) ?_
  rw [List.set_set]
  refine Perm.trans (siftupGo_perm lt heap pos h _) ?_
  rw [set_getD_self _ _ _ h]

theorem heappush_perm {α : Type} [Inhabited α] (lt : α → α → Bool)
    (heap : List α) (item : α) :
    heappush lt heap item ~ heap ++ [item] := by
  unfold heappush siftdown
  rw [getD_append_len]
  refine Perm.trans (siftdownGo_perm lt 0 item _ heap.length (by simp)) ?_
  have : (heap ++ [item]).set heap.length item = heap ++ [item] := by
    have := set_getD_self (heap ++ [item]) heap.length item (by simp)
    rwa [getD_append_len] at this
  rw [this]

theorem heappop_perm {α : Type} [Inhabited α] (lt : α → α → Bool)
    (heap : List α) (r : α) (rest : List α)
    (h : heappop lt heap = some (r, rest)) : r :: rest ~ heap := by
  unfold heappop at h
  match hl : heap.getLast? with
  | none => rw [hl] at h; exact absurd h (by simp)
  | some lastelt =>
    rw [hl] at h
    dsimp only at h
    have hne : heap ≠ [] := by rintro rfl; simp at hl
    have hdec : heap.dropLast ++ [lastelt] = heap := by
      have h1 := List.dropLast_append_getLast hne
      rw [List.getLast?_eq_getLast heap hne, Option.some.injEq] at hl
      rwa [hl] at h1
    by_cases he : heap.dropLast.isEmpty
    · rw [if_pos he] at h
      simp only [Option.some.injEq, Prod.mk.injEq] at h
      obtain ⟨rfl, rfl⟩ := h
      rw [← hdec, List.isEmpty_iff.mp he]
      exact Perm.refl _
    · rw [if_neg he] at h
      simp only [Option.some.injEq, Prod.mk.injEq] at h
      obtain ⟨hr, hrest⟩ := h
      have hdne : 0 < heap.dropLast.length :=
        List.length_pos.mpr (by simpa using he)
      match hd : heap.dropLast with
      | [] => rw [hd] at hdne; simp at hdne
      | b :: t =>
        rw [hd] at hr hrest
        have hrb : r = b := by rw [← hr]; rfl
        have : rest ~ lastelt :: t := by
          rw [← hrest]
          refine Perm.trans (siftup_perm lt _ 0 (by simp)) ?_
          exact Perm.refl _
        refine Perm.trans (Perm.cons r this) ?_
        rw [← hdec, hd, hrb]
        calc b :: lastelt :: t ~ b :: (t ++ [lastelt]) :=
              Perm.cons b (List.perm_append_singleton lastelt t).symm
          _ = (b :: t) ++ [lastelt] := rfl

theorem heapifyGo_perm {α : Type} [Inhabited α] (lt : α → α → Bool)
    (heap : List α) (k : Nat) (h : k ≤ heap.length) :
    heapifyGo lt heap k ~ heap := by
  induction k generalizing heap with
  | zero => exact Perm.refl _
  | succ k ih =>
    rw [heapifyGo]
    refine Perm.trans (ih _ ?_) (siftup_perm lt heap k (by omega))
    rw [length_siftup lt heap k (by omega)]
    omega

theorem heapify_perm {α : Type} [Inhabited α] (lt : α → α → Bool)
    (heap : List α) : heapify lt heap ~ heap := by
  unfold heapify
  exact heapifyGo_perm lt heap _ (by omega)

/-- `lt` is asymmetric: both desmod key orders (tuple `<` on
`(priority, count)`, rational `<` on amounts, and its reverse) satisfy it. -/
def Asym {α : Type} (lt : α → α → Bool) : Prop :=
  ∀ x y, lt x y = true → lt y x = false

/-- The derived `le` (`not <`) is transitive. -/
def LeTrans {α : Type} (lt : α → α → Bool) : Prop :=
  ∀ x y z, lt y x = false → lt z y = false → lt z x = false

theorem lt_self_eq_false {α : Type} (lt : α → α → Bool) (hA : Asym lt)
    (x : α) : lt x x = false := by
  cases h : lt x x with
  | true => have := hA x x h; rw [h] at this; exact this
  | false => rfl

/-- Bubble-up restores the heap invariant: if the array is a heap except
possibly at the edge into `pos`, and the children of `pos` are bounded by
the value at the parent of `pos`, then `_siftdown` from `pos` with
`startpos = 0` yields a heap.  The hypotheses are phrased over the virtual
array `heap.set pos ni` in which the carried `newitem` already sits in the
hole. -/
theorem siftdownGo_isHeap {α : Type} [Inhabited α] (lt : α → α → Bool)
    (hA : Asym lt) (hT : LeTrans lt) (heap : List α) (pos : Nat) (ni : α)
    (hpos : pos < heap.length)
    (hAH : ∀ j, j < heap.length → 0 < j → j ≠ pos →
      lt ((heap.set pos ni).getD j default)
        ((heap.set pos ni).getD ((j - 1) / 2) default) = false)
    (hCB : 0 < pos → ∀ c, c < heap.length → (c - 1) / 2 = pos →
      lt ((heap.set pos ni).getD c default)
        ((heap.set pos ni).getD ((pos - 1) / 2) default) = false) :
    IsHeap lt (siftdownGo lt 0 ni heap pos) := by
  induction pos using Nat.strong_induction_on generalizing heap with
  | _ pos ih =>
    rw [siftdownGo]
    split
    · rename_i hsp
      dsimp only
      split
      · rename_i hlt
        -- recursive step: swap ni with the parent value
        refine ih ((pos - 1) / 2) (by omega) (heap.set pos
          (heap.getD ((pos - 1) / 2) default))
          (by simp only [List.length_set]; omega) ?_ ?_
        · -- AlmostHeap for the new hole (pos-1)/2
          intro j hj hj0 hjne
          simp only [List.length_set] at hj
          have hppne : (pos - 1) / 2 ≠ pos := by omega
          have vpar : ((heap.set pos (heap.getD ((pos - 1) / 2) default)).set
              ((pos - 1) / 2) ni).getD ((pos - 1) / 2) default = ni :=
            getD_set_self _ _ _ _ (by simp only [List.length_set]; omega)
          have vpos : ((heap.set pos (heap.getD ((pos - 1) / 2) default)).set
              ((pos - 1) / 2) ni).getD pos default
              = heap.getD ((pos - 1) / 2) default := by
            rw [getD_set_ne _ _ _ _ _ hppne, getD_set_self _ _ _ _ hpos]
          have vother : ∀ k, k ≠ pos → k ≠ (pos - 1) / 2 →
              ((heap.set pos (heap.getD ((pos - 1) / 2) default)).set
                ((pos - 1) / 2) ni).getD k default = heap.getD k default := by
            intro k hk1 hk2
            rw [getD_set_ne _ _ _ _ _ (fun h => hk2 h.symm),
              getD_set_ne _ _ _ _ _ (fun h => hk1 h.symm)]
          have wpos : (heap.set pos ni).getD pos default = ni :=
            getD_set_self _ _ _ _ hpos
          have wother : ∀ k, k ≠ pos →
              (heap.set pos ni).getD k default = heap.getD k default := by
            intro k hk
            rw [getD_set_ne _ _ _ _ _ (fun h => hk h.symm)]
          by_cases hjpos : j = pos
          · -- edge (hole → old pos): parent value vs ni
            subst hjpos
            rw [vpos, vpar]
            exact hA _ _ hlt
          · by_cases hjchild : (j - 1) / 2 = pos
            · -- j is the other child of pos
              have hthis := hCB (by omega) j hj hjchild
              rw [wother _ hjpos, wother _ hppne] at hthis
              have hppj : j ≠ (pos - 1) / 2 := by omega
              rw [vother j hjpos hppj, hjchild, vpos]
              exact hthis
            · by_cases hjsib : (j - 1) / 2 = (pos - 1) / 2
              · -- j is a child of the new hole, other than pos
                have hedge := hAH j hj hj0 hjpos
                rw [wother _ hjpos, hjsib, wother _ hppne] at hedge
                have hnipar : lt (heap.getD ((pos - 1) / 2) default) ni
                    = false := hA _ _ hlt
                have hjpp : j ≠ (pos - 1) / 2 := by omega
                rw [vother j hjpos hjpp, hjsib, vpar]
                exact hT ni (heap.getD ((pos - 1) / 2) default)
                  (heap.getD j default) hnipar hedge
              · -- untouched edge
                have hedge := hAH j hj hj0 hjpos
                rw [wother _ hjpos, wother _ hjchild] at hedge
                have hjpp : j ≠ (pos - 1) / 2 := hjne
                rw [vother j hjpos hjpp, vother _ hjchild hjsib]
                exact hedge
        · -- ChildBound for the new hole
          intro hpp0 c hc hcchild
          simp only [List.length_set] at hc
          have hppne : (pos - 1) / 2 ≠ pos := by omega
          have hcne : c ≠ (pos - 1) / 2 := by omega
          have vc : ((heap.set pos (heap.getD ((pos - 1) / 2) default)).set
              ((pos - 1) / 2) ni).getD c default
              = (heap.set pos (heap.getD ((pos - 1) / 2) default)).getD c
                default :=
            getD_set_ne _ _ _ _ _ (fun h => hcne h.symm)
          have vppp : ((heap.set pos (heap.getD ((pos - 1) / 2) default)).set
              ((pos - 1) / 2) ni).getD (((pos - 1) / 2 - 1) / 2) default
              = heap.getD (((pos - 1) / 2 - 1) / 2) default := by
            have h1 : ((pos - 1) / 2 - 1) / 2 ≠ (pos - 1) / 2 := by omega
            have h2 : ((pos - 1) / 2 - 1) / 2 ≠ pos := by omega
            rw [getD_set_ne _ _ _ _ _ (fun h => h1 h.symm),
              getD_set_ne _ _ _ _ _ (fun h => h2 h.symm)]
          have wother : ∀ k, k ≠ pos →
              (heap.set pos ni).getD k default = heap.getD k default := by
            intro k hk
            rw [getD_set_ne _ _ _ _ _ (fun h => hk h.symm)]
          have hedgepp := hAH ((pos - 1) / 2) (by omega) hpp0 hppne
          rw [wother _ hppne, wother _ (by omega : ((pos - 1) / 2 - 1) / 2 ≠ pos)]
            at hedgepp
          rw [vc, vppp]
          by_cases hcpos : c = pos
          · -- c is the old position, now holding the parent value
            subst hcpos
            rw [getD_set_self _ _ _ _ hpos]
            exact hedgepp
          · -- c is the sibling of pos below the new hole
            rw [getD_set_ne _ _ _ _ _ (fun h => hcpos h.symm)]
            have hedgec := hAH c hc (by omega) hcpos
            rw [wother _ hcpos, hcchild, wother _ hppne] at hedgec
            exact hT (heap.getD (((pos - 1) / 2 - 1) / 2) default)
              (heap.getD ((pos - 1) / 2) default) (heap.getD c default)
              hedgepp hedgec
      · rename_i hlt
        -- the carried item is not below its parent: write and stop
        intro j hj hj0
        simp only [List.length_set] at hj
        by_cases hjpos : j = pos
        · subst hjpos
          rw [getD_set_self _ _ _ _ hpos,
            getD_set_ne _ _ _ _ _ (by omega : j ≠ (j - 1) / 2)]
          simpa using hlt
        · exact hAH j hj hj0 hjpos
    · rename_i hsp
      -- pos = 0: no parent edge to check
      have hpos0 : pos = 0 := by omega
      intro j hj hj0
      simp only [List.length_set] at hj
      exact hAH j hj hj0 (by omega)

/-- In a `heapq` heap the root is minimal: no entry is strictly below
`heap[0]`. -/
theorem isHeap_root_min {α : Type} [Inhabited α] (lt : α → α → Bool)
    (hA : Asym lt) (hT : LeTrans lt) (l : List α) (hH : IsHeap lt l) :
    ∀ j, j < l.length → lt (l.getD j default) (l.getD 0 default) = false := by
  intro j
  induction j using Nat.strong_induction_on with
  | _ j ih =>
    intro hj
    rcases Nat.eq_zero_or_pos j with hj0 | hj0
    · subst hj0
      exact lt_self_eq_false lt hA _
    · have hpar := hH j hj hj0
      have hup := ih ((j - 1) / 2) (by omega) (by omega)
      exact hT (l.getD 0 default) (l.getD ((j - 1) / 2) default)
        (l.getD j default) hup hpar

/-- `heappush` preserves the heap invariant. -/
theorem heappush_isHeap {α : Type} [Inhabited α] (lt : α → α → Bool)
    (hA : Asym lt) (hT : LeTrans lt) (heap : List α) (item : α)
    (hH : IsHeap lt heap) : IsHeap lt (heappush lt heap item) := by
  unfold heappush siftdown
  rw [getD_append_len]
  refine siftdownGo_isHeap lt hA hT (heap ++ [item]) heap.length item
    (by simp) ?_ ?_
  · intro j hj hj0 hjne
    simp only [List.length_append, List.length_singleton] at hj
    have hjlt : j < heap.length := by omega
    have hparlt : (j - 1) / 2 < heap.length := by omega
    have hset : (heap ++ [item]).set heap.length item = heap ++ [item] := by
      have := set_getD_self (heap ++ [item]) heap.length item (by simp)
      rwa [getD_append_len] at this
    rw [hset, getD_append_lt _ _ _ _ hjlt, getD_append_lt _ _ _ _ hparlt]
    exact hH j hjlt hj0
  · intro hpos0 c hc hcc
    simp only [List.length_append, List.length_singleton] at hc
    omega

/-- One step of the `_siftup` hole-moving loop preserves its invariant:
all edges hold except those out of the hole (`H1`), the hole duplicates
its parent value (`H2`), and the hole's children are bounded by the hole's
parent value (`H3`).  `cp` is the chosen (minimal) child, `oc` the other
child index. -/
theorem siftupGo_step_inv {α : Type} [Inhabited α] (lt : α → α → Bool)
    (hA : Asym lt) (l : List α) (pos cp oc : Nat)
    (hpos : pos < l.length) (hcplt : cp < l.length) (hcpgt : pos < cp)
    (hcp : (cp - 1) / 2 = pos) (hocpar : (oc - 1) / 2 = pos) (hocne : oc ≠ cp)
    (hchoice : oc < l.length →
      lt (l.getD oc default) (l.getD cp default) = false)
    (hchildren : ∀ c, 0 < c → (c - 1) / 2 = pos → c = cp ∨ c = oc)
    (H1 : ∀ c, c < l.length → 0 < c → (c - 1) / 2 ≠ pos →
      lt (l.getD c default) (l.getD ((c - 1) / 2) default) = false)
    (H2 : 0 < pos → l.getD ((pos - 1) / 2) default = l.getD pos default)
    (H3 : 0 < pos → ∀ c, c < l.length → (c - 1) / 2 = pos →
      lt (l.getD c default) (l.getD ((pos - 1) / 2) default) = false) :
    (∀ c, c < (l.set pos (l.getD cp default)).length → 0 < c →
      (c - 1) / 2 ≠ cp →
      lt ((l.set pos (l.getD cp default)).getD c default)
        ((l.set pos (l.getD cp default)).getD ((c - 1) / 2) default)
        = false) ∧
    (0 < cp → (l.set pos (l.getD cp default)).getD ((cp - 1) / 2) default
      = (l.set pos (l.getD cp default)).getD cp default) ∧
    (0 < cp → ∀ c, c < (l.set pos (l.getD cp default)).length →
      (c - 1) / 2 = cp →
      lt ((l.set pos (l.getD cp default)).getD c default)
        ((l.set pos (l.getD cp default)).getD ((cp - 1) / 2) default)
        = false) := by
  have hcppos : pos < cp := by omega
  have lpos : (l.set pos (l.getD cp default)).getD pos default
      = l.getD cp default := getD_set_self _ _ _ _ hpos
  have lother : ∀ k, k ≠ pos →
      (l.set pos (l.getD cp default)).getD k default = l.getD k default := by
    intro k hk
    exact getD_set_ne _ _ _ _ _ (fun h => hk h.symm)
  refine ⟨?_, ?_, ?_⟩
  · intro c hc hc0 hcne
    simp only [List.length_set] at hc
    by_cases hcpos : c = pos
    · -- the hole position, now holding the chosen child's value
      subst hcpos
      have hc0' : 0 < c := hc0
      have hparne : (c - 1) / 2 ≠ c := by omega
      rw [lpos, lother _ hparne, H2 hc0']
      have := H3 hc0' cp hcplt hcp
      rwa [H2 hc0'] at this
    · by_cases hccp : c = cp
      · -- the chosen child: its parent now duplicates its value
        subst hccp
        rw [lother _ hcpos, hcp, lpos]
        exact lt_self_eq_false lt hA _
      · by_cases hcchild : (c - 1) / 2 = pos
        · -- the other child of the old hole
          rcases hchildren c hc0 hcchild with h | h
          · exact absurd h hccp
          · subst h
            rw [lother _ hcpos, hcchild, lpos]
            exact hchoice hc
        · -- untouched edge
          rw [lother _ hcpos, lother _ hcchild]
          exact H1 c hc hc0 hcchild
  · rw [hcp, lpos, lother _ (by omega : cp ≠ pos)]
    intro
    rfl
  · intro hcp0 c hc hcchild
    simp only [List.length_set] at hc
    have hcnepos : c ≠ pos := by omega
    have hcpar : (c - 1) / 2 ≠ pos := by omega
    rw [lother _ hcnepos, hcp, lpos]
    have := H1 c hc (by omega) hcpar
    rwa [hcchild] at this

/-- The `_siftup` hole-moving loop keeps its three-part invariant
(see `siftupGo_step_inv`) all the way down to the leaf. -/
theorem siftupGo_inv {α : Type} [Inhabited α] (lt : α → α → Bool)
    (hA : Asym lt) (l : List α) (pos : Nat) (hpos : pos < l.length)
    (H1 : ∀ c, c < l.length → 0 < c → (c - 1) / 2 ≠ pos →
      lt (l.getD c default) (l.getD ((c - 1) / 2) default) = false)
    (H2 : 0 < pos → l.getD ((pos - 1) / 2) default = l.getD pos default)
    (H3 : 0 < pos → ∀ c, c < l.length → (c - 1) / 2 = pos →
      lt (l.getD c default) (l.getD ((pos - 1) / 2) default) = false) :
    (∀ c, c < (siftupGo lt l pos).1.length → 0 < c →
      (c - 1) / 2 ≠ (siftupGo lt l pos).2 →
      lt ((siftupGo lt l pos).1.getD c default)
        ((siftupGo lt l pos).1.getD ((c - 1) / 2) default) = false) ∧
    (0 < (siftupGo lt l pos).2 →
      (siftupGo lt l pos).1.getD (((siftupGo lt l pos).2 - 1) / 2) default
        = (siftupGo lt l pos).1.getD (siftupGo lt l pos).2 default) ∧
    (0 < (siftupGo lt l pos).2 → ∀ c, c < (siftupGo lt l pos).1.length →
      (c - 1) / 2 = (siftupGo lt l pos).2 →
      lt ((siftupGo lt l pos).1.getD c default)
        ((siftupGo lt l pos).1.getD
          (((siftupGo lt l pos).2 - 1) / 2) default) = false) := by
  generalize hm : l.length - pos = m
  induction m using Nat.strong_induction_on generalizing l pos with
  | _ m ih =>
    rw [siftupGo]
    split
    · rename_i hc1
      dsimp only
      split
      · rename_i hr
        -- right child chosen
        have hstep := siftupGo_step_inv lt hA l pos (2 * pos + 1 + 1)
          (2 * pos + 1) hpos hr.1 (by omega) (by omega) (by omega) (by omega)
          (fun _ => hr.2) (fun c hc0 hcc => by omega) H1 H2 H3
        exact ih ((l.set pos (l.getD (2 * pos + 1 + 1) default)).length
            - (2 * pos + 1 + 1)) (by simp only [List.length_set]; omega)
          _ (2 * pos + 1 + 1) (by simp only [List.length_set]; omega)
          hstep.1 hstep.2.1 hstep.2.2 rfl
      · rename_i hr
        -- left child chosen
        have hchoice : 2 * pos + 1 + 1 < l.length →
            lt (l.getD (2 * pos + 1 + 1) default)
              (l.getD (2 * pos + 1) default) = false := by
          intro hoc
          rcases not_and_or.mp hr with h | h
          · exact absurd hoc h
          · have := Bool.of_not_eq_false h
            exact hA _ _ this
        have hstep := siftupGo_step_inv lt hA l pos (2 * pos + 1)
          (2 * pos + 1 + 1) hpos hc1 (by omega) (by omega) (by omega)
          (by omega) hchoice (fun c hc0 hcc => by omega) H1 H2 H3
        exact ih ((l.set pos (l.getD (2 * pos + 1) default)).length
            - (2 * pos + 1)) (by simp only [List.length_set]; omega)
          _ (2 * pos + 1) (by simp only [List.length_set]; omega)
          hstep.1 hstep.2.1 hstep.2.2 rfl
    · exact ⟨H1, H2, H3⟩

/-- `_siftup(heap, 0)` restores the heap invariant when every edge except
those out of the root holds. -/
theorem siftup_isHeap {α : Type} [Inhabited α] (lt : α → α → Bool)
    (hA : Asym lt) (hT : LeTrans lt) (l : List α) (hne : 0 < l.length)
    (hpre : ∀ j, j < l.length → 2 < j →
      lt (l.getD j default) (l.getD ((j - 1) / 2) default) = false) :
    IsHeap lt (siftup lt l 0) := by
  unfold siftup siftdown
  dsimp only
  have hspec := siftupGo_spec lt l 0 hne
  have hinv := siftupGo_inv lt hA l 0 hne
    (fun c hc hc0 hcne => hpre c hc (by omega)) (by omega)
    (fun h => absurd h (by omega))
  have hp2 : (siftupGo lt l 0).2 < (siftupGo lt l 0).1.length := by
    rw [hspec.1]; exact hspec.2.1
  have hleaf : (siftupGo lt l 0).1.length ≤ 2 * (siftupGo lt l 0).2 + 1 := by
    rw [hspec.1]; exact hspec.2.2
  rw [getD_set_self _ _ _ _ hp2]
  refine siftdownGo_isHeap lt hA hT _ _ _
    (by simp only [List.length_set]; exact hp2) ?_ ?_
  · intro j hj hj0 hjne
    simp only [List.length_set] at hj
    rw [List.set_set]
    have hjch : (j - 1) / 2 ≠ (siftupGo lt l 0).2 := by omega
    have hgj : ((siftupGo lt l 0).1.set (siftupGo lt l 0).2
        (l.getD 0 default)).getD j default
        = (siftupGo lt l 0).1.getD j default :=
      getD_set_ne _ _ _ _ _ (fun h => hjne h.symm)
    have hgp : ((siftupGo lt l 0).1.set (siftupGo lt l 0).2
        (l.getD 0 default)).getD ((j - 1) / 2) default
        = (siftupGo lt l 0).1.getD ((j - 1) / 2) default :=
      getD_set_ne _ _ _ _ _ (fun h => hjch h.symm)
    rw [hgj, hgp]
    exact hinv.1 j hj hj0 hjch
  · intro hp0 c hc hcc
    simp only [List.length_set] at hc
    omega

/-- `heappop` on a non-empty heap returns the root element. -/
theorem heappop_root {α : Type} [Inhabited α] (lt : α → α → Bool)
    (heap : List α) (r : α) (rest : List α)
    (h : heappop lt heap = some (r, rest)) : r = heap.getD 0 default := by
  unfold heappop at h
  match hl : heap.getLast? with
  | none => rw [hl] at h; exact absurd h (by simp)
  | some lastelt =>
    rw [hl] at h
    dsimp only at h
    have hne : heap ≠ [] := by rintro rfl; simp at hl
    have hdec : heap.dropLast ++ [lastelt] = heap := by
      have h1 := List.dropLast_append_getLast hne
      rw [List.getLast?_eq_getLast heap hne, Option.some.injEq] at hl
      rwa [hl] at h1
    by_cases he : heap.dropLast.isEmpty
    · rw [if_pos he] at h
      simp only [Option.some.injEq, Prod.mk.injEq] at h
      rw [← hdec, List.isEmpty_iff.mp he, h.1]
      rfl
    · rw [if_neg he] at h
      simp only [Option.some.injEq, Prod.mk.injEq] at h
      have hdne : 0 < heap.dropLast.length :=
        List.length_pos.mpr (by simpa using he)
      have hx : heap.getD 0 default = heap.dropLast.getD 0 default := by
        conv_lhs => rw [← hdec]
        exact getD_append_lt _ _ _ _ hdne
      rw [← h.1, hx]

/-- `heappop` preserves the heap invariant. -/
theorem heappop_isHeap {α : Type} [Inhabited α] (lt : α → α → Bool)
    (hA : Asym lt) (hT : LeTrans lt) (heap : List α) (r : α) (rest : List α)
    (hH : IsHeap lt heap) (h : heappop lt heap = some (r, rest)) :
    IsHeap lt rest := by
  unfold heappop at h
  match hl : heap.getLast? with
  | none => rw [hl] at h; exact absurd h (by simp)
  | some lastelt =>
    rw [hl] at h
    dsimp only at h
    have hne : heap ≠ [] := by rintro rfl; simp at hl
    have hdec : heap.dropLast ++ [lastelt] = heap := by
      have h1 := List.dropLast_append_getLast hne
      rw [List.getLast?_eq_getLast heap hne, Option.some.injEq] at hl
      rwa [hl] at h1
    by_cases he : heap.dropLast.isEmpty
    · rw [if_pos he] at h
      simp only [Option.some.injEq, Prod.mk.injEq] at h
      rw [← h.2, List.isEmpty_iff.mp he]
      intro j hj hj0
      simp at hj
    · rw [if_neg he] at h
      simp only [Option.some.injEq, Prod.mk.injEq] at h
      have hdne : 0 < heap.dropLast.length :=
        List.length_pos.mpr (by simpa using he)
      rw [← h.2]
      refine siftup_isHeap lt hA hT _ (by simp only [List.length_set]; omega)
        ?_
      intro j hj hj2
      simp only [List.length_set] at hj
      have hjne : j ≠ 0 := by omega
      have hpne : (j - 1) / 2 ≠ 0 := by omega
      rw [getD_set_ne _ _ _ _ _ (fun he2 => hjne he2.symm),
        getD_set_ne _ _ _ _ _ (fun he2 => hpne he2.symm)]
      have hj1 : heap.getD j default = (heap.dropLast).getD j default := by
        conv_lhs => rw [← hdec]
        exact getD_append_lt _ _ _ _ hj
      have hj2' : heap.getD ((j - 1) / 2) default
          = (heap.dropLast).getD ((j - 1) / 2) default := by
        conv_lhs => rw [← hdec]
        exact getD_append_lt _ _ _ _ (by omega)
      rw [← hj1, ← hj2']
      refine hH j ?_ (by omega)
      have : heap.length = heap.dropLast.length + 1 := by
        conv_lhs => rw [← hdec]
        simp
      omega

/-- Repeatedly `heappop` until the heap is exhausted, collecting the
returned items in order (the sequence a consumer draining the heap with
`heappop` observes). -/
def heappopAll {α : Type} [Inhabited α] (lt : α → α → Bool)
    (heap : List α) : List α :=
  match h : heappop lt heap with
  | none => []
  | some (r, rest) => r :: heappopAll lt rest
termination_by heap.length
decreasing_by
  have := length_heappop lt heap r rest h
  omega

theorem heappop_none_iff {α : Type} [Inhabited α] (lt : α → α → Bool)
    (heap : List α) : heappop lt heap = none ↔ heap = [] := by
  constructor
  · intro h
    unfold heappop at h
    match hl : heap.getLast? with
    | some lastelt =>
      rw [hl] at h
      dsimp only at h
      by_cases he : heap.dropLast.isEmpty
      · rw [if_pos he] at h; exact absurd h (by simp)
      · rw [if_neg he] at h; exact absurd h (by simp)
    | none => exact List.getLast?_eq_none_iff.mp hl
  · rintro rfl
    rfl

theorem heappopAll_perm {α : Type} [Inhabited α] (lt : α → α → Bool)
    (heap : List α) : heappopAll lt heap ~ heap := by
  generalize hm : heap.length = m
  induction m using Nat.strong_induction_on generalizing heap with
  | _ m ih =>
    rw [heappopAll]
    split
    · rename_i h
      rw [heappop_none_iff lt heap] at h
      rw [h]
    · rename_i r rest h
      have hlen := length_heappop lt heap r rest h
      refine Perm.trans (Perm.cons r (ih rest.length (by omega) rest rfl)) ?_
      exact heappop_perm lt heap r rest h

/-- Draining a heap with `heappop` yields a `le`-sorted sequence: the
`heapq` heap-sort property. -/
theorem heappopAll_sorted {α : Type} [Inhabited α] (lt : α → α → Bool)
    (hA : Asym lt) (hT : LeTrans lt) (heap : List α) (hH : IsHeap lt heap) :
    (heappopAll lt heap).Pairwise (le lt) := by
  generalize hm : heap.length = m
  induction m using Nat.strong_induction_on generalizing heap with
  | _ m ih =>
    rw [heappopAll]
    split
    · exact List.Pairwise.nil
    · rename_i r rest h
      have hlen := length_heappop lt heap r rest h
      have hrest : IsHeap lt rest := heappop_isHeap lt hA hT heap r rest hH h
      refine List.Pairwise.cons ?_ (ih rest.length (by omega) rest hrest rfl)
      intro b hb
      have hbrest : b ∈ rest := (heappopAll_perm lt rest).mem_iff.mp hb
      have hbheap : b ∈ heap := (heappop_perm lt heap r rest h).mem_iff.mp
        (List.mem_cons_of_mem r hbrest)
      obtain ⟨j, hj, hjb⟩ := List.mem_iff_getElem.mp hbheap
      have hmin := isHeap_root_min lt hA hT heap hH j hj
      rw [List.getD_eq_getElem heap default hj, hjb] at hmin
      rw [heappop_root lt heap r rest h]
      exact hmin

/-! ## Generic helpers -/

theorem isHeap_root_min_mem {α : Type} [Inhabited α] (lt : α → α → Bool)
    (hA : Asym lt) (hT : LeTrans lt) (l : List α) (hH : IsHeap lt l)
    (x : α) (hx : x ∈ l) : lt x (l.getD 0 default) = false := by
  obtain ⟨j, hj, hjx⟩ := List.mem_iff_getElem.mp hx
  have := isHeap_root_min lt hA hT l hH j hj
  rwa [List.getD_eq_getElem l default hj, hjx] at this

theorem pairwise_pair_sublist {α : Type} (R : α → α → Prop) (l : List α)
    (hP : l.Pairwise R) (a b : α) (ha : a ∈ l) (hb : b ∈ l) (hab : a ≠ b)
    (hnR : ¬ R b a) : [a, b].Sublist l := by
  induction l with
  | nil => simp at ha
  | cons x t ih =>
    rw [List.pairwise_cons] at hP
    by_cases hax : a = x
    · subst hax
      have hbt : b ∈ t := by
        rcases List.mem_cons.mp hb with h | h
        · exact absurd h.symm hab
        · exact h
      exact List.Sublist.cons₂ a (List.singleton_sublist.mpr hbt)
    · by_cases hbx : b = x
      · subst hbx
        have hat : a ∈ t := by
          rcases List.mem_cons.mp ha with h | h
          · exact absurd h hax
          · exact h
        exact absurd (hP.1 a hat) hnR
      · have hat : a ∈ t := by
          rcases List.mem_cons.mp ha with h | h
          · exact absurd h hax
          · exact h
        have hbt : b ∈ t := by
          rcases List.mem_cons.mp hb with h | h
          · exact absurd h hbx
          · exact h
        exact List.Sublist.cons x (ih hP.2 hat hbt)

theorem foldl_heappush_isHeap {α : Type} [Inhabited α] (lt : α → α → Bool)
    (hA : Asym lt) (hT : LeTrans lt) :
    ∀ (xs : List α) (h : List α), IsHeap lt h →
      IsHeap lt (xs.foldl (heappush lt) h) := by
  intro xs
  induction xs with
  | nil => intro h hh; exact hh
  | cons x t ih =>
    intro h hh
    exact ih (heappush lt h x) (heappush_isHeap lt hA hT h x hh)

theorem foldl_heappush_perm {α : Type} [Inhabited α] (lt : α → α → Bool) :
    ∀ (xs : List α) (h : List α),
      xs.foldl (heappush lt) h ~ h ++ xs := by
  intro xs
  induction xs with
  | nil => intro h; simp
  | cons x t ih =>
    intro h
    refine Perm.trans (ih (heappush lt h x)) ?_
    have h1 : heappush lt h x ++ t ~ (h ++ [x]) ++ t :=
      (heappush_perm lt h x).append_right t
    refine Perm.trans h1 ?_
    rw [List.append_assoc]
    exact Perm.refl _

/-! ## Pool (src/desmod/pool.py)

The pool's amounts and levels live in a linear ordered commutative ring
`α`: instantiating `α := ℤ` models discrete (`int`) pools and `α := ℚ`
models continuous (idealized `float`) pools; `capacity = none` models the
default infinite capacity `float('inf')`.  Each waiter event is identified
by a caller-chosen `id`; `triggered` is the chronological list of ids of
events that have been succeeded (`Event.succeed`), mirroring each event's
`triggered` flag.  The callbacks an event registers
(`_trigger_when_at_least`/`_trigger_get` on put events, etc.) run only
when the simpy environment processes the succeeded event, so they are
modelled as separately invocable trigger operations, not as part of
`put`/`get`. -/

/-- A pending `PoolPutEvent`/`PoolGetEvent`: its event id and `amount`. -/
structure PoolWaiter (α : Type) where
  id : Nat
  amount : α
deriving DecidableEq

instance {α : Type} [LinearOrderedCommRing α] : Inhabited (PoolWaiter α) :=
  ⟨⟨0, 0⟩⟩

/-- `0 < amount <= pool.capacity`, the check in `PoolPutEvent.__init__`
and `PoolGetEvent.__init__` (for an infinite capacity only `0 < amount`
remains). -/
def amountValid {α : Type} [LinearOrderedCommRing α] (cap : Option α)
    (amount : α) : Prop :=
  match cap with
  | none => 0 < amount
  | some c => 0 < amount ∧ amount ≤ c

instance {α : Type} [LinearOrderedCommRing α] :
    ∀ (cap : Option α) (amount : α), Decidable (amountValid cap amount)
  | none, amount => inferInstanceAs (Decidable (0 < amount))
  | some c, amount => inferInstanceAs (Decidable (0 < amount ∧ amount ≤ c))

/-- `self.capacity - self.level >= put_ev.amount` of `_trigger_put`
(always true for an infinite capacity). -/
def putFits {α : Type} [LinearOrderedCommRing α] (cap : Option α)
    (level amount : α) : Prop :=
  match cap with
  | none => True
  | some c => amount ≤ c - level

instance {α : Type} [LinearOrderedCommRing α] :
    ∀ (cap : Option α) (level amount : α),
      Decidable (putFits cap level amount)
  | none, _, _ => .isTrue trivial
  | some c, level, amount => inferInstanceAs (Decidable (amount ≤ c - level))

/-- State of a plain `Pool`: capacity, fill level, `hard_cap` flag, the
four waiter lists, and the ids of already-succeeded events. -/
structure PoolState (α : Type) where
  capacity : Option α
  level : α
  hard_cap : Bool
  put_waiters : List (PoolWaiter α)
  get_waiters : List (PoolWaiter α)
  at_least_waiters : List (PoolWaiter α)
  at_most_waiters : List (PoolWaiter α)
  triggered : List Nat
deriving DecidableEq

/-- `Pool.__init__(env, capacity, init, hard_cap)`: all waiter lists start
empty; `init` is NOT validated against the capacity. -/
def Pool.make {α : Type} (capacity : Option α) (ini : α) (hard_cap : Bool) :
    PoolState α :=
  ⟨capacity, ini, hard_cap, [], [], [], [], []⟩

/-- Outcome of one trigger loop: final level, still-pending waiters,
succeeded waiters in succession order, and whether `OverflowError` was
raised (leaving the first two fields at their values at the raise). -/
structure TriggerResult (α : Type) where
  level : α
  pending : List (PoolWaiter α)
  succeeded : List (PoolWaiter α)
  overflow : Bool
deriving DecidableEq

/-- `Pool._trigger_put`: scan the put waiter list from the head; a waiter
that fits is removed and fulfilled (`level += amount`), otherwise with
`hard_cap` an `OverflowError` is raised, and otherwise the scan moves past
it (`idx += 1`) and continues with the next waiter. -/
def Pool.trigger_put_loop {α : Type} [LinearOrderedCommRing α]
    (cap : Option α) (hard : Bool) :
    α → List (PoolWaiter α) → TriggerResult α
  | level, [] => ⟨level, [], [], false⟩
  | level, w :: ws =>
    if putFits cap level w.amount then
      let r := Pool.trigger_put_loop cap hard (level + w.amount) ws
      ⟨r.level, r.pending, w :: r.succeeded, r.overflow⟩
    else if hard then
      ⟨level, w :: ws, [], true⟩
    else
      let r := Pool.trigger_put_loop cap hard level ws
      ⟨r.level, w :: r.pending, r.succeeded, r.overflow⟩

/-- `Pool._trigger_get`: scan the get waiter list from the head; a waiter
whose `amount <= level` is removed and fulfilled (`level -= amount`),
otherwise the scan moves past it; there is no overflow case. -/
def Pool.trigger_get_loop {α : Type} [LinearOrderedCommRing α] :
    α → List (PoolWaiter α) → α × List (PoolWaiter α) × List (PoolWaiter α)
  | level, [] => (level, [], [])
  | level, w :: ws =>
    if w.amount ≤ level then
      let r := Pool.trigger_get_loop (level - w.amount) ws
      (r.1, r.2.1, w :: r.2.2)
    else
      let r := Pool.trigger_get_loop level ws
      (r.1, w :: r.2.1, r.2.2)

/-- State-level `Pool._trigger_put`; on overflow the exception propagates
with the mutations made so far (`.error`). -/
def Pool.trigger_put {α : Type} [LinearOrderedCommRing α] (s : PoolState α) :
    Except (PoolState α) (PoolState α) :=
  let r := Pool.trigger_put_loop s.capacity s.hard_cap s.level s.put_waiters
  let s2 : PoolState α := { s with
    level := r.level
    put_waiters := r.pending
    triggered := s.triggered ++ r.succeeded.map PoolWaiter.id }
  if r.overflow then .error s2 else .ok s2

/-- State-level `Pool._trigger_get`. -/
def Pool.trigger_get {α : Type} [LinearOrderedCommRing α] (s : PoolState α) :
    PoolState α :=
  let r := Pool.trigger_get_loop s.level s.get_waiters
  { s with
    level := r.1
    get_waiters := r.2.1
    triggered := s.triggered ++ r.2.2.map PoolWaiter.id }

/-- Errors a `Pool` operation can raise: `ValueError` for an invalid
amount (raised before any state mutation, hence carrying no state), or
`OverflowError` escaping the trigger cycle with the state mutated so
far. -/
inductive PoolErr (α : Type) where
  | invalid : PoolErr α
  | overflow : PoolState α → PoolErr α
deriving DecidableEq

/-- `PoolPutEvent.__init__` = `Pool.put(amount)`: validate the amount,
append the new waiter to `_put_waiters`, then run `_trigger_put`. -/
def Pool.put {α : Type} [LinearOrderedCommRing α] (s : PoolState α)
    (id : Nat) (amount : α) : Except (PoolErr α) (PoolState α) :=
  if amountValid s.capacity amount then
    match Pool.trigger_put
        { s with put_waiters := s.put_waiters ++ [⟨id, amount⟩] } with
    | .ok s2 => .ok s2
    | .error s2 => .error (.overflow s2)
  else
    .error .invalid

/-- `PoolGetEvent.__init__` = `Pool.get(amount)`: validate the amount,
append the new waiter to `_get_waiters`, then run `_trigger_get`. -/
def Pool.get {α : Type} [LinearOrderedCommRing α] (s : PoolState α)
    (id : Nat) (amount : α) : Except (PoolErr α) (PoolState α) :=
  if amountValid s.capacity amount then
    .ok (Pool.trigger_get
      { s with get_waiters := s.get_waiters ++ [⟨id, amount⟩] })
  else
    .error .invalid

/-- `PoolWhenAtLeastEvent.__lt__`: min-heap keyed by `amount`. -/
def ltAtLeast {α : Type} [LinearOrderedCommRing α]
    (a b : PoolWaiter α) : Bool :=
  decide (a.amount < b.amount)

/-- `PoolWhenAtMostEvent.__lt__` is reversed: max-heap keyed by
`amount`. -/
def ltAtMost {α : Type} [LinearOrderedCommRing α]
    (a b : PoolWaiter α) : Bool :=
  decide (b.amount < a.amount)

/-- Loop of `Pool._trigger_when_at_least`: pop and succeed heap heads
while `level >= heap[0].amount`; returns (remaining heap, succeeded). -/
def Pool.trigger_at_least_loop {α : Type} [LinearOrderedCommRing α]
    (level : α) (ws : List (PoolWaiter α)) :
    List (PoolWaiter α) × List (PoolWaiter α) :=
  if ws.isEmpty then ([], [])
  else if (ws.getD 0 default).amount ≤ level then
    match hp : heappop ltAtLeast ws with
    | some (r, rest) =>
      let t := Pool.trigger_at_least_loop level rest
      (t.1, r :: t.2)
    | none => (ws, [])
  else
    (ws, [])
termination_by ws.length
decreasing_by
  have := length_heappop ltAtLeast ws r rest hp
  omega

/-- Loop of `Pool._trigger_when_at_most`: pop and succeed heap heads while
`level <= heap[0].amount`. -/
def Pool.trigger_at_most_loop {α : Type} [LinearOrderedCommRing α]
    (level : α) (ws : List (PoolWaiter α)) :
    List (PoolWaiter α) × List (PoolWaiter α) :=
  if ws.isEmpty then ([], [])
  else if level ≤ (ws.getD 0 default).amount then
    match hp : heappop ltAtMost ws with
    | some (r, rest) =>
      let t := Pool.trigger_at_most_loop level rest
      (t.1, r :: t.2)
    | none => (ws, [])
  else
    (ws, [])
termination_by ws.length
decreasing_by
  have := length_heappop ltAtMost ws r rest hp
  omega

/-- State-level `Pool._trigger_when_at_least`. -/
def Pool.trigger_when_at_least {α : Type} [LinearOrderedCommRing α]
    (s : PoolState α) : PoolState α :=
  let t := Pool.trigger_at_least_loop s.level s.at_least_waiters
  { s with
    at_least_waiters := t.1
    triggered := s.triggered ++ t.2.map PoolWaiter.id }

/-- State-level `Pool._trigger_when_at_most`. -/
def Pool.trigger_when_at_most {α : Type} [LinearOrderedCommRing α]
    (s : PoolState α) : PoolState α :=
  let t := Pool.trigger_at_most_loop s.level s.at_most_waiters
  { s with
    at_most_waiters := t.1
    triggered := s.triggered ++ t.2.map PoolWaiter.id }

/-- `PoolWhenAtLeastEvent.__init__` = `Pool.when_at_least(amount)`:
`heappush` the event (no amount validation), then trigger. -/
def Pool.when_at_least {α : Type} [LinearOrderedCommRing α]
    (s : PoolState α) (id : Nat) (amount : α) : PoolState α :=
  Pool.trigger_when_at_least
    { s with
      at_least_waiters := heappush ltAtLeast s.at_least_waiters
        ⟨id, amount⟩ }

/-- `PoolWhenAtMostEvent.__init__` = `Pool.when_at_most(amount)`. -/
def Pool.when_at_most {α : Type} [LinearOrderedCommRing α]
    (s : PoolState α) (id : Nat) (amount : α) : PoolState α :=
  Pool.trigger_when_at_most
    { s with
      at_most_waiters := heappush ltAtMost s.at_most_waiters ⟨id, amount⟩ }

/-- `PoolPutEvent.cancel`: a no-op when the event has triggered; otherwise
`self.pool._put_waiters.remove(self)`, which raises `ValueError` (modelled
as `.error ()`) when the event is not in the list. -/
def Pool.cancel_put {α : Type} [LinearOrderedCommRing α] [DecidableEq α]
    (s : PoolState α) (w : PoolWaiter α) : Except Unit (PoolState α) :=
  if w.id ∈ s.triggered then .ok s
  else if w ∈ s.put_waiters then
    .ok { s with put_waiters := s.put_waiters.erase w }
  else .error ()

/-- `PoolGetEvent.cancel`. -/
def Pool.cancel_get {α : Type} [LinearOrderedCommRing α] [DecidableEq α]
    (s : PoolState α) (w : PoolWaiter α) : Except Unit (PoolState α) :=
  if w.id ∈ s.triggered then .ok s
  else if w ∈ s.get_waiters then
    .ok { s with get_waiters := s.get_waiters.erase w }
  else .error ()

/-- `PoolWhenAtLeastEvent.cancel`: remove from the heap list, then
re-`heapify`. -/
def Pool.cancel_when_at_least {α : Type} [LinearOrderedCommRing α]
    [DecidableEq α] (s : PoolState α) (w : PoolWaiter α) :
    Except Unit (PoolState α) :=
  if w.id ∈ s.triggered then .ok s
  else if w ∈ s.at_least_waiters then
    .ok { s with
      at_least_waiters := heapify ltAtLeast (s.at_least_waiters.erase w) }
  else .error ()

/-! ## PriorityPool (src/desmod/pool.py) -/

/-- A pending `PriorityPoolPutEvent`/`PriorityPoolGetEvent`: its event id,
`amount`, and `key = (priority, pool._event_count)`. -/
structure PrioWaiter (α : Type) where
  id : Nat
  amount : α
  priority : Int
  count : Nat
deriving DecidableEq

instance {α : Type} [LinearOrderedCommRing α] : Inhabited (PrioWaiter α) :=
  ⟨⟨0, 0, 0, 0⟩⟩

/-- `PriorityPoolPutEvent.__lt__` / `PriorityPoolGetEvent.__lt__`:
lexicographic comparison of the `(priority, count)` tuples. -/
def ltPrio {α : Type} (a b : PrioWaiter α) : Bool :=
  decide (a.priority < b.priority ∨
    (a.priority = b.priority ∧ a.count < b.count))

/-- State of a `PriorityPool`: as `Pool` but the put/get waiter lists are
heaps of `PrioWaiter` and `_event_count` numbers the requests. -/
structure PriorityPoolState (α : Type) where
  capacity : Option α
  level : α
  hard_cap : Bool
  put_waiters : List (PrioWaiter α)
  get_waiters : List (PrioWaiter α)
  at_least_waiters : List (PoolWaiter α)
  at_most_waiters : List (PoolWaiter α)
  triggered : List Nat
  event_count : Nat
deriving DecidableEq

/-- `PriorityPool.__init__`. -/
def PriorityPool.make {α : Type} (capacity : Option α) (ini : α)
    (hard_cap : Bool) : PriorityPoolState α :=
  ⟨capacity, ini, hard_cap, [], [], [], [], [], 0⟩

/-- Outcome of a `PriorityPool` trigger cycle. -/
structure PrioTriggerResult (α : Type) where
  level : α
  pending : List (PrioWaiter α)
  succeeded : List (PrioWaiter α)
  overflow : Bool
deriving DecidableEq

/-- `PriorityPool._trigger_put`: look at the heap head `waiters[0]`; if it
fits, `heappop` and fulfill it and continue; else raise with `hard_cap`,
else `break`. -/
def PriorityPool.trigger_put_loop {α : Type} [LinearOrderedCommRing α]
    (cap : Option α) (hard : Bool) (level : α) (ws : List (PrioWaiter α)) :
    PrioTriggerResult α :=
  if ws.isEmpty then ⟨level, ws, [], false⟩
  else if putFits cap level ((ws.getD 0 default).amount) then
    match hp : heappop ltPrio ws with
    | some (r, rest) =>
      let t := PriorityPool.trigger_put_loop cap hard (level + r.amount) rest
      ⟨t.level, t.pending, r :: t.succeeded, t.overflow⟩
    | none => ⟨level, ws, [], false⟩
  else if hard then ⟨level, ws, [], true⟩
  else ⟨level, ws, [], false⟩
termination_by ws.length
decreasing_by
  have := length_heappop ltPrio ws r rest hp
  omega

/-- `PriorityPool._trigger_get`: symmetric, with no overflow and `break`
when the head's `amount` exceeds the level. -/
def PriorityPool.trigger_get_loop {α : Type} [LinearOrderedCommRing α]
    (level : α) (ws : List (PrioWaiter α)) :
    α × List (PrioWaiter α) × List (PrioWaiter α) :=
  if ws.isEmpty then (level, ws, [])
  else if (ws.getD 0 default).amount ≤ level then
    match hp : heappop ltPrio ws with
    | some (r, rest) =>
      let t := PriorityPool.trigger_get_loop (level - r.amount) rest
      (t.1, t.2.1, r :: t.2.2)
    | none => (level, ws, [])
  else (level, ws, [])
termination_by ws.length
decreasing_by
  have := length_heappop ltPrio ws r rest hp
  omega

/-- State-level `PriorityPool._trigger_put`. -/
def PriorityPool.trigger_put {α : Type} [LinearOrderedCommRing α]
    (s : PriorityPoolState α) :
    Except (PriorityPoolState α) (PriorityPoolState α) :=
  let r := PriorityPool.trigger_put_loop s.capacity s.hard_cap s.level
    s.put_waiters
  let s2 : PriorityPoolState α := { s with
    level := r.level
    put_waiters := r.pending
    triggered := s.triggered ++ r.succeeded.map PrioWaiter.id }
  if r.overflow then .error s2 else .ok s2

/-- State-level `PriorityPool._trigger_get`. -/
def PriorityPool.trigger_get {α : Type} [LinearOrderedCommRing α]
    (s : PriorityPoolState α) : PriorityPoolState α :=
  let r := PriorityPool.trigger_get_loop s.level s.get_waiters
  { s with
    level := r.1
    get_waiters := r.2.1
    triggered := s.triggered ++ r.2.2.map PrioWaiter.id }

/-- Errors a `PriorityPool` operation can raise. -/
inductive PrioPoolErr (α : Type) where
  | invalid : PrioPoolErr α
  | overflow : PriorityPoolState α → PrioPoolErr α
deriving DecidableEq

/-- `PriorityPoolPutEvent.__init__` = `PriorityPool.put(amount,
priority)`: validate, build the key from `_event_count`, `heappush`,
trigger. -/
def PriorityPool.put {α : Type} [LinearOrderedCommRing α]
    (s : PriorityPoolState α) (id : Nat) (amount : α) (priority : Int) :
    Except (PrioPoolErr α) (PriorityPoolState α) :=
  if amountValid s.capacity amount then
    match PriorityPool.trigger_put { s with
      put_waiters := heappush ltPrio s.put_waiters
        ⟨id, amount, priority, s.event_count⟩
      event_count := s.event_count + 1 } with
    | .ok s2 => .ok s2
    | .error s2 => .error (.overflow s2)
  else
    .error .invalid

/-- `PriorityPoolGetEvent.__init__` = `PriorityPool.get(amount,
priority)`. -/
def PriorityPool.get {α : Type} [LinearOrderedCommRing α]
    (s : PriorityPoolState α) (id : Nat) (amount : α) (priority : Int) :
    Except (PrioPoolErr α) (PriorityPoolState α) :=
  if amountValid s.capacity amount then
    .ok (PriorityPool.trigger_get { s with
      get_waiters := heappush ltPrio s.get_waiters
        ⟨id, amount, priority, s.event_count⟩
      event_count := s.event_count + 1 })
  else
    .error .invalid

/-! ## Queue and PriorityQueue (src/desmod/queue.py)

The trigger cycles are shared between `Queue` and `PriorityQueue`, which
override only `_enqueue_item` / `_dequeue_item`; the model passes those as
the `enq`/`deq` parameters.  `α` is the capacity's numeric type, `β` the
item type.  Get events deliver the dequeued item via `succeed(item)`: the
model records the deliveries in `got` in chronological order. -/

/-- State of a `Queue[β]` or `PriorityQueue[β]`. -/
structure QueueState (α β : Type) where
  capacity : Option α
  hard_cap : Bool
  items : List β
  put_waiters : List (Nat × β)
  get_waiters : List Nat
  triggered : List Nat
  got : List (Nat × β)
deriving DecidableEq

/-- `len(self.items) < self.capacity` in `Queue._trigger_put`. -/
def queueHasRoom {α : Type} [LinearOrderedCommRing α] (cap : Option α)
    (size : Nat) : Prop :=
  match cap with
  | none => True
  | some c => (size : α) < c

instance {α : Type} [LinearOrderedCommRing α] :
    ∀ (cap : Option α) (size : Nat), Decidable (queueHasRoom cap size)
  | none, _ => .isTrue trivial
  | some c, size => inferInstanceAs (Decidable ((size : α) < c))

/-- `Queue.__init__(env, capacity, hard_cap, items)`: pre-populating
`items` is NOT capacity-checked. -/
def Queue.make {α β : Type} (capacity : Option α) (hard_cap : Bool)
    (items : List β) : QueueState α β :=
  ⟨capacity, hard_cap, items, [], [], [], []⟩

/-- `Queue._enqueue_item`: `self.items.append(item)`. -/
def Queue.enqueue_item {β : Type} (item : β) (items : List β) : List β :=
  items ++ [item]

/-- `Queue._dequeue_item`: `self.items.pop(0)`. -/
def Queue.dequeue_item {β : Type} [Inhabited β] (items : List β) :
    β × List β :=
  (items.getD 0 default, items.drop 1)

/-- `PriorityQueue._enqueue_item`: `heappush(self.items, item)`. -/
def PriorityQueue.enqueue_item {β : Type} [Inhabited β]
    (ltI : β → β → Bool) (item : β) (items : List β) : List β :=
  heappush ltI items item

/-- `PriorityQueue._dequeue_item`: `heappop(self.items)`. -/
def PriorityQueue.dequeue_item {β : Type} [Inhabited β]
    (ltI : β → β → Bool) (items : List β) : β × List β :=
  match heappop ltI items with
  | some p => p
  | none => (default, items)

/-- `Queue._trigger_put` (shared with `PriorityQueue` via `enq`): while
put waiters remain, if there is room, pop the head waiter, enqueue its
item and succeed it; else raise with `hard_cap`; else break. -/
def Queue.trigger_put_loop {α β : Type} [LinearOrderedCommRing α]
    (cap : Option α) (hard : Bool) (enq : β → List β → List β) :
    List β → List (Nat × β) → List β × List (Nat × β) × List Nat × Bool
  | items, [] => (items, [], [], false)
  | items, w :: ws =>
    if queueHasRoom cap items.length then
      let r := Queue.trigger_put_loop cap hard enq (enq w.2 items) ws
      (r.1, r.2.1, w.1 :: r.2.2.1, r.2.2.2)
    else if hard then (items, w :: ws, [], true)
    else (items, w :: ws, [], false)

/-- `Queue._trigger_get` (shared via `deq`): while get waiters and items
remain, pop the head get waiter, dequeue an item, succeed the waiter with
that item. -/
def Queue.trigger_get_loop {β : Type} (deq : List β → β × List β) :
    List β → List Nat → List β × List Nat × List (Nat × β)
  | items, [] => (items, [], [])
  | items, g :: gs =>
    if items.isEmpty then (items, g :: gs, [])
    else
      let p := deq items
      let r := Queue.trigger_get_loop deq p.2 gs
      (r.1, r.2.1, (g, p.1) :: r.2.2)

/-- State-level `Queue._trigger_put`, parameterized by `enq`. -/
def Queue.trigger_put_with {α β : Type} [LinearOrderedCommRing α]
    (enq : β → List β → List β) (s : QueueState α β) :
    Except (QueueState α β) (QueueState α β) :=
  let r := Queue.trigger_put_loop s.capacity s.hard_cap enq s.items
    s.put_waiters
  let s2 : QueueState α β := { s with
    items := r.1
    put_waiters := r.2.1
    triggered := s.triggered ++ r.2.2.1 }
  if r.2.2.2 then .error s2 else .ok s2

/-- State-level `Queue._trigger_get`, parameterized by `deq`. -/
def Queue.trigger_get_with {α β : Type} (deq : List β → β × List β)
    (s : QueueState α β) : QueueState α β :=
  let r := Queue.trigger_get_loop deq s.items s.get_waiters
  { s with
    items := r.1
    get_waiters := r.2.1
    triggered := s.triggered ++ r.2.2.map Prod.fst
    got := s.got ++ r.2.2 }

/-- `QueuePutEvent.__init__` = `Queue.put(item)`: append the waiter (no
validation), then `_trigger_put`.  An overflow carries the mutated
state. -/
def Queue.put {α β : Type} [LinearOrderedCommRing α] (s : QueueState α β)
    (id : Nat) (item : β) : Except (QueueState α β) (QueueState α β) :=
  Queue.trigger_put_with Queue.enqueue_item
    { s with put_waiters := s.put_waiters ++ [(id, item)] }

/-- `QueueGetEvent.__init__` = `Queue.get()`. -/
def Queue.get {α β : Type} [LinearOrderedCommRing α] [Inhabited β]
    (s : QueueState α β) (id : Nat) : QueueState α β :=
  Queue.trigger_get_with Queue.dequeue_item
    { s with get_waiters := s.get_waiters ++ [id] }

/-- `PriorityQueue.put(item)`: as `Queue.put` but enqueuing via
`heappush`. -/
def PriorityQueue.put {α β : Type} [LinearOrderedCommRing α] [Inhabited β]
    (ltI : β → β → Bool) (s : QueueState α β) (id : Nat) (item : β) :
    Except (QueueState α β) (QueueState α β) :=
  Queue.trigger_put_with (PriorityQueue.enqueue_item ltI)
    { s with put_waiters := s.put_waiters ++ [(id, item)] }

/-- `PriorityQueue.get()`: as `Queue.get` but dequeuing via `heappop`. -/
def PriorityQueue.get {α β : Type} [LinearOrderedCommRing α] [Inhabited β]
    (ltI : β → β → Bool) (s : QueueState α β) (id : Nat) : QueueState α β :=
  Queue.trigger_get_with (PriorityQueue.dequeue_item ltI)
    { s with get_waiters := s.get_waiters ++ [id] }

/-- `Queue.peek()`: `self.items[0]`, whose `IndexError` on an empty list
is modelled as `.error ()`.  (Inherited unchanged by `PriorityQueue`; it
performs no mutation.) -/
def Queue.peek {α β : Type} (s : QueueState α β) : Except Unit β :=
  match s.items with
  | [] => .error ()
  | x :: _ => .ok x

/-- `Queue.is_empty`: `not self.items`. -/
def Queue.is_empty {α β : Type} (s : QueueState α β) : Prop := s.items = []

instance {α β : Type} [DecidableEq β] (s : QueueState α β) :
    Decidable (Queue.is_empty s) :=
  inferInstanceAs (Decidable (s.items = []))

/-- `QueueGetEvent.cancel`: no-op when triggered, otherwise
`self.queue._get_waiters.remove(self)` (ValueError when absent). -/
def Queue.cancel_get {α β : Type} (s : QueueState α β) (id : Nat) :
    Except Unit (QueueState α β) :=
  if id ∈ s.triggered then .ok s
  else if id ∈ s.get_waiters then
    .ok { s with get_waiters := s.get_waiters.erase id }
  else .error ()

/-- `PriorityItem` of src/desmod/queue.py: ordering solely by `priority`
(the payload need not be orderable). -/
structure PriorityItem where
  priority : Int
  item : Nat
deriving DecidableEq

instance : Inhabited PriorityItem := ⟨⟨0, 0⟩⟩

/-- `PriorityItem.__lt__`: `self.priority < other.priority`. -/
def ltPriorityItem (a b : PriorityItem) : Bool :=
  decide (a.priority < b.priority)

/-! ## Order facts for the concrete comparisons -/

theorem ltAtLeast_asym {α : Type} [LinearOrderedCommRing α] :
    Asym (ltAtLeast (α := α)) := by
  intro x y h
  simp only [ltAtLeast, decide_eq_true_eq] at h
  simp only [ltAtLeast, decide_eq_false_iff_not, not_lt]
  exact h.le

theorem ltAtLeast_letrans {α : Type} [LinearOrderedCommRing α] :
    LeTrans (ltAtLeast (α := α)) := by
  intro x y z h1 h2
  simp only [ltAtLeast, decide_eq_false_iff_not, not_lt] at h1 h2 ⊢
  exact h1.trans h2

theorem ltAtMost_asym {α : Type} [LinearOrderedCommRing α] :
    Asym (ltAtMost (α := α)) := by
  intro x y h
  simp only [ltAtMost, decide_eq_true_eq] at h
  simp only [ltAtMost, decide_eq_false_iff_not, not_lt]
  exact h.le

theorem ltAtMost_letrans {α : Type} [LinearOrderedCommRing α] :
    LeTrans (ltAtMost (α := α)) := by
  intro x y z h1 h2
  simp only [ltAtMost, decide_eq_false_iff_not, not_lt] at h1 h2 ⊢
  exact h2.trans h1

theorem ltPrio_asym {α : Type} : Asym (ltPrio (α := α)) := by
  intro x y h
  simp only [ltPrio, decide_eq_true_eq] at h
  simp only [ltPrio, decide_eq_false_iff_not]
  omega

theorem ltPrio_letrans {α : Type} : LeTrans (ltPrio (α := α)) := by
  intro x y z h1 h2
  simp only [ltPrio, decide_eq_false_iff_not] at h1 h2 ⊢
  omega

theorem ltPriorityItem_asym : Asym ltPriorityItem := by
  intro x y h
  simp only [ltPriorityItem, decide_eq_true_eq] at h
  simp only [ltPriorityItem, decide_eq_false_iff_not, not_lt]
  exact h.le

theorem ltPriorityItem_letrans : LeTrans ltPriorityItem := by
  intro x y z h1 h2
  simp only [ltPriorityItem, decide_eq_false_iff_not, not_lt] at h1 h2 ⊢
  exact h1.trans h2

/-- `level <= capacity` (trivially true for infinite capacity). -/
def levelLe {α : Type} [LinearOrderedCommRing α] (cap : Option α)
    (level : α) : Prop :=
  match cap with
  | none => True
  | some c => level ≤ c

instance {α : Type} [LinearOrderedCommRing α] :
    ∀ (cap : Option α) (level : α), Decidable (levelLe cap level)
  | none, _ => .isTrue trivial
  | some c, level => inferInstanceAs (Decidable (level ≤ c))

/-! ## Plain Pool trigger-loop lemmas -/

theorem pool_put_loop_spec {α : Type} [LinearOrderedCommRing α]
    (cap : Option α) (hard : Bool) :
    ∀ (ws : List (PoolWaiter α)) (level : α),
    (Pool.trigger_put_loop cap hard level ws).pending.Sublist ws ∧
    (Pool.trigger_put_loop cap hard level ws).succeeded.Sublist ws ∧
    (Pool.trigger_put_loop cap hard level ws).level
      = level + ((Pool.trigger_put_loop cap hard level ws).succeeded.map
          PoolWaiter.amount).sum := by
  intro ws
  induction ws with
  | nil =>
    intro level
    exact ⟨List.Sublist.refl _, List.Sublist.refl _,
      by simp [Pool.trigger_put_loop]⟩
  | cons w t ih =>
    intro level
    rw [Pool.trigger_put_loop]
    split
    · obtain ⟨h1, h2, h3⟩ := ih (level + w.amount)
      exact ⟨List.Sublist.cons w h1, List.Sublist.cons₂ w h2,
        by simp only [List.map_cons, List.sum_cons]; rw [h3]; ring⟩
    · split
      · exact ⟨List.Sublist.refl _, List.nil_sublist _, by simp⟩
      · obtain ⟨h1, h2, h3⟩ := ih level
        exact ⟨List.Sublist.cons₂ w h1, List.Sublist.cons w h2, h3⟩

theorem pool_put_loop_no_overflow {α : Type} [LinearOrderedCommRing α]
    (cap : Option α) :
    ∀ (ws : List (PoolWaiter α)) (level : α),
    (Pool.trigger_put_loop cap false level ws).overflow = false := by
  intro ws
  induction ws with
  | nil => intro level; rfl
  | cons w t ih =>
    intro level
    rw [Pool.trigger_put_loop]
    split
    · exact ih (level + w.amount)
    · split
      · simp_all
      · exact ih level

theorem pool_put_loop_mono {α : Type} [LinearOrderedCommRing α]
    (cap : Option α) (hard : Bool) :
    ∀ (ws : List (PoolWaiter α)) (level : α),
    (∀ w ∈ ws, 0 < w.amount) →
    level ≤ (Pool.trigger_put_loop cap hard level ws).level := by
  intro ws
  induction ws with
  | nil => intro level _; exact le_refl _
  | cons w t ih =>
    intro level hpos
    rw [Pool.trigger_put_loop]
    split
    · have h1 := ih (level + w.amount)
        (fun v hv => hpos v (List.mem_cons_of_mem w hv))
      have hw := hpos w (List.mem_cons_self w t)
      dsimp only
      exact le_trans (le_add_of_nonneg_right hw.le) h1
    · split
      · exact le_refl _
      · exact ih level (fun v hv => hpos v (List.mem_cons_of_mem w hv))

theorem pool_put_loop_pending_unfit {α : Type} [LinearOrderedCommRing α]
    (cap : Option α) :
    ∀ (ws : List (PoolWaiter α)) (level : α),
    (∀ w ∈ ws, 0 < w.amount) →
    ∀ w ∈ (Pool.trigger_put_loop cap false level ws).pending,
      ¬ putFits cap (Pool.trigger_put_loop cap false level ws).level
        w.amount := by
  intro ws
  induction ws with
  | nil => intro level _ w hw; simp [Pool.trigger_put_loop] at hw
  | cons w t ih =>
    intro level hpos v hv
    rw [Pool.trigger_put_loop] at hv ⊢
    by_cases hc : putFits cap level w.amount
    · rw [if_pos hc] at hv ⊢
      exact ih (level + w.amount)
        (fun u hu => hpos u (List.mem_cons_of_mem w hu)) v hv
    · rw [if_neg hc, if_neg (by simp : ¬(false = true))] at hv ⊢
      dsimp only at hv ⊢
      rcases List.mem_cons.mp hv with rfl | hv2
      · -- the skipped head still does not fit at the final (larger) level
        intro hfit
        apply hc
        have hmono := pool_put_loop_mono cap false t level
          (fun u hu => hpos u (List.mem_cons_of_mem v hu))
        cases cap with
        | none => trivial
        | some c =>
          simp only [putFits] at hfit ⊢
          exact le_trans hfit (sub_le_sub_left hmono c)
      · exact ih level (fun u hu => hpos u (List.mem_cons_of_mem w hu)) v hv2

theorem pool_put_loop_bounds {α : Type} [LinearOrderedCommRing α]
    (cap : Option α) (hard : Bool) :
    ∀ (ws : List (PoolWaiter α)) (level : α),
    (∀ w ∈ ws, amountValid cap w.amount) → 0 ≤ level → levelLe cap level →
    0 ≤ (Pool.trigger_put_loop cap hard level ws).level ∧
    levelLe cap (Pool.trigger_put_loop cap hard level ws).level := by
  intro ws
  induction ws with
  | nil => intro level _ h0 hle; exact ⟨h0, hle⟩
  | cons w t ih =>
    intro level hval h0 hle
    rw [Pool.trigger_put_loop]
    split
    · rename_i hfit
      have hwpos : 0 < w.amount := by
        have := hval w (List.mem_cons_self w t)
        cases cap with
        | none => simpa only [amountValid] using this
        | some c => exact this.1
      refine ih (level + w.amount)
        (fun u hu => hval u (List.mem_cons_of_mem w hu))
        (add_nonneg h0 hwpos.le) ?_
      cases cap with
      | none => trivial
      | some c =>
        simp only [putFits] at hfit
        simp only [levelLe]
        have := le_sub_iff_add_le.mp hfit
        rwa [add_comm] at this
    · split
      · exact ⟨h0, hle⟩
      · exact ih level (fun u hu => hval u (List.mem_cons_of_mem w hu)) h0 hle

theorem pool_put_loop_overflow_mem {α : Type} [LinearOrderedCommRing α]
    (cap : Option α) :
    ∀ (ws : List (PoolWaiter α)) (w : PoolWaiter α) (level : α),
    (Pool.trigger_put_loop cap true level (ws ++ [w])).overflow = true →
    w ∈ (Pool.trigger_put_loop cap true level (ws ++ [w])).pending := by
  intro ws
  induction ws with
  | nil =>
    intro w level hov
    rw [List.nil_append, Pool.trigger_put_loop] at hov ⊢
    by_cases hc : putFits cap level w.amount
    · rw [if_pos hc] at hov
      simp [Pool.trigger_put_loop] at hov
    · rw [if_neg hc]
      simp
  | cons a t ih =>
    intro w level hov
    rw [List.cons_append, Pool.trigger_put_loop] at hov ⊢
    by_cases hc : putFits cap level a.amount
    · rw [if_pos hc] at hov ⊢
      exact ih w (level + a.amount) hov
    · rw [if_neg hc]
      simp

theorem pool_get_loop_spec {α : Type} [LinearOrderedCommRing α] :
    ∀ (ws : List (PoolWaiter α)) (level : α),
    (Pool.trigger_get_loop level ws).2.1.Sublist ws ∧
    (Pool.trigger_get_loop level ws).2.2.Sublist ws ∧
    (Pool.trigger_get_loop level ws).1
      = level - ((Pool.trigger_get_loop level ws).2.2.map
          PoolWaiter.amount).sum := by
  intro ws
  induction ws with
  | nil =>
    intro level
    exact ⟨List.Sublist.refl _, List.Sublist.refl _,
      by simp [Pool.trigger_get_loop]⟩
  | cons w t ih =>
    intro level
    rw [Pool.trigger_get_loop]
    split
    · obtain ⟨h1, h2, h3⟩ := ih (level - w.amount)
      exact ⟨List.Sublist.cons w h1, List.Sublist.cons₂ w h2,
        by simp only [List.map_cons, List.sum_cons]; rw [h3]; ring⟩
    · obtain ⟨h1, h2, h3⟩ := ih level
      exact ⟨List.Sublist.cons₂ w h1, List.Sublist.cons w h2, h3⟩

theorem pool_get_loop_mono {α : Type} [LinearOrderedCommRing α] :
    ∀ (ws : List (PoolWaiter α)) (level : α),
    (∀ w ∈ ws, 0 < w.amount) →
    (Pool.trigger_get_loop level ws).1 ≤ level := by
  intro ws
  induction ws with
  | nil => intro level _; exact le_refl _
  | cons w t ih =>
    intro level hpos
    rw [Pool.trigger_get_loop]
    split
    · have h1 := ih (level - w.amount)
        (fun v hv => hpos v (List.mem_cons_of_mem w hv))
      have hw := hpos w (List.mem_cons_self w t)
      dsimp only
      exact le_trans h1 (sub_le_self level hw.le)
    · exact ih level (fun v hv => hpos v (List.mem_cons_of_mem w hv))

theorem pool_get_loop_pending_unfit {α : Type} [LinearOrderedCommRing α] :
    ∀ (ws : List (PoolWaiter α)) (level : α),
    (∀ w ∈ ws, 0 < w.amount) →
    ∀ w ∈ (Pool.trigger_get_loop level ws).2.1,
      ¬ (w.amount ≤ (Pool.trigger_get_loop level ws).1) := by
  intro ws
  induction ws with
  | nil => intro level _ w hw; simp [Pool.trigger_get_loop] at hw
  | cons w t ih =>
    intro level hpos v hv
    rw [Pool.trigger_get_loop] at hv ⊢
    by_cases hc : w.amount ≤ level
    · rw [if_pos hc] at hv ⊢
      exact ih (level - w.amount)
        (fun u hu => hpos u (List.mem_cons_of_mem w hu)) v hv
    · rw [if_neg hc] at hv ⊢
      dsimp only at hv ⊢
      rcases List.mem_cons.mp hv with rfl | hv2
      · intro hfit
        apply hc
        have hmono := pool_get_loop_mono t level
          (fun u hu => hpos u (List.mem_cons_of_mem v hu))
        exact le_trans hfit hmono
      · exact ih level (fun u hu => hpos u (List.mem_cons_of_mem w hu)) v hv2

theorem pool_get_loop_bounds {α : Type} [LinearOrderedCommRing α] :
    ∀ (ws : List (PoolWaiter α)) (level : α) (cap : Option α),
    (∀ w ∈ ws, 0 < w.amount) → 0 ≤ level → levelLe cap level →
    0 ≤ (Pool.trigger_get_loop level ws).1 ∧
    levelLe cap (Pool.trigger_get_loop level ws).1 := by
  intro ws
  induction ws with
  | nil => intro level cap _ h0 hle; exact ⟨h0, hle⟩
  | cons w t ih =>
    intro level cap hpos h0 hle
    rw [Pool.trigger_get_loop]
    split
    · rename_i hfit
      refine ih (level - w.amount) cap
        (fun u hu => hpos u (List.mem_cons_of_mem w hu))
        (sub_nonneg.mpr hfit) ?_
      cases cap with
      | none => trivial
      | some c =>
        have hw := hpos w (List.mem_cons_self w t)
        simp only [levelLe] at hle ⊢
        exact le_trans (sub_le_self level hw.le) hle
    · exact ih level cap (fun u hu => hpos u (List.mem_cons_of_mem w hu))
        h0 hle

/-! ## Threshold trigger-loop lemmas -/

theorem at_least_loop_spec {α : Type} [LinearOrderedCommRing α] :
    ∀ (ws : List (PoolWaiter α)) (level : α), IsHeap ltAtLeast ws →
    ((Pool.trigger_at_least_loop level ws).2
        ++ (Pool.trigger_at_least_loop level ws).1 ~ ws) ∧
    (∀ w ∈ (Pool.trigger_at_least_loop level ws).2, w.amount ≤ level) ∧
    (∀ w ∈ (Pool.trigger_at_least_loop level ws).1, level < w.amount) ∧
    IsHeap ltAtLeast (Pool.trigger_at_least_loop level ws).1 := by
  intro ws
  generalize hm : ws.length = m
  induction m using Nat.strong_induction_on generalizing ws with
  | _ m ih =>
    intro level hH
    rw [Pool.trigger_at_least_loop]
    split
    · rename_i hemp
      have : ws = [] := List.isEmpty_iff.mp hemp
      subst this
      exact ⟨Perm.refl _, by simp, by simp, hH⟩
    · rename_i hemp
      split
      · rename_i hcond
        split
        · rename_i r rest heq
          dsimp only
          have hlen := length_heappop ltAtLeast ws r rest heq
          have hperm := heappop_perm ltAtLeast ws r rest heq
          have hroot := heappop_root ltAtLeast ws r rest heq
          have hrest := heappop_isHeap ltAtLeast ltAtLeast_asym
            ltAtLeast_letrans ws r rest hH heq
          obtain ⟨ihp, ihs, ihq, ihh⟩ := ih rest.length (by omega) rest rfl
            level hrest
          refine ⟨?_, ?_, ihq, ihh⟩
          · calc (r :: (Pool.trigger_at_least_loop level rest).2)
                ++ (Pool.trigger_at_least_loop level rest).1
                = r :: ((Pool.trigger_at_least_loop level rest).2
                  ++ (Pool.trigger_at_least_loop level rest).1) := rfl
              _ ~ r :: rest := Perm.cons r ihp
              _ ~ ws := hperm
          · intro w hw
            rcases List.mem_cons.mp hw with rfl | hw2
            · rwa [hroot]
            · exact ihs w hw2
        · rename_i heq
          rw [heappop_none_iff] at heq
          exact absurd (List.isEmpty_iff.mpr heq) hemp
      · rename_i hcond
        push_neg at hcond
        refine ⟨by simp, by simp, ?_, hH⟩
        intro w hw
        have := isHeap_root_min_mem ltAtLeast ltAtLeast_asym
          ltAtLeast_letrans ws hH w hw
        simp only [ltAtLeast, decide_eq_false_iff_not, not_lt] at this
        exact lt_of_lt_of_le hcond this

theorem at_most_loop_spec {α : Type} [LinearOrderedCommRing α] :
    ∀ (ws : List (PoolWaiter α)) (level : α), IsHeap ltAtMost ws →
    ((Pool.trigger_at_most_loop level ws).2
        ++ (Pool.trigger_at_most_loop level ws).1 ~ ws) ∧
    (∀ w ∈ (Pool.trigger_at_most_loop level ws).2, level ≤ w.amount) ∧
    (∀ w ∈ (Pool.trigger_at_most_loop level ws).1, w.amount < level) ∧
    IsHeap ltAtMost (Pool.trigger_at_most_loop level ws).1 := by
  intro ws
  generalize hm : ws.length = m
  induction m using Nat.strong_induction_on generalizing ws with
  | _ m ih =>
    intro level hH
    rw [Pool.trigger_at_most_loop]
    split
    · rename_i hemp
      have : ws = [] := List.isEmpty_iff.mp hemp
      subst this
      exact ⟨Perm.refl _, by simp, by simp, hH⟩
    · rename_i hemp
      split
      · rename_i hcond
        split
        · rename_i r rest heq
          dsimp only
          have hlen := length_heappop ltAtMost ws r rest heq
          have hperm := heappop_perm ltAtMost ws r rest heq
          have hroot := heappop_root ltAtMost ws r rest heq
          have hrest := heappop_isHeap ltAtMost ltAtMost_asym
            ltAtMost_letrans ws r rest hH heq
          obtain ⟨ihp, ihs, ihq, ihh⟩ := ih rest.length (by omega) rest rfl
            level hrest
          refine ⟨?_, ?_, ihq, ihh⟩
          · calc (r :: (Pool.trigger_at_most_loop level rest).2)
                ++ (Pool.trigger_at_most_loop level rest).1
                = r :: ((Pool.trigger_at_most_loop level rest).2
                  ++ (Pool.trigger_at_most_loop level rest).1) := rfl
              _ ~ r :: rest := Perm.cons r ihp
              _ ~ ws := hperm
          · intro w hw
            rcases List.mem_cons.mp hw with rfl | hw2
            · rwa [hroot]
            · exact ihs w hw2
        · rename_i heq
          rw [heappop_none_iff] at heq
          exact absurd (List.isEmpty_iff.mpr heq) hemp
      · rename_i hcond
        push_neg at hcond
        refine ⟨by simp, by simp, ?_, hH⟩
        intro w hw
        have := isHeap_root_min_mem ltAtMost ltAtMost_asym
          ltAtMost_letrans ws hH w hw
        simp only [ltAtMost, decide_eq_false_iff_not, not_lt] at this
        exact lt_of_le_of_lt this hcond

/-! ## PriorityPool trigger-loop lemmas -/

theorem pp_put_loop_spec {α : Type} [LinearOrderedCommRing α]
    (cap : Option α) :
    ∀ (ws : List (PrioWaiter α)) (level : α), IsHeap ltPrio ws →
    (PriorityPool.trigger_put_loop cap false level ws).overflow = false ∧
    ((PriorityPool.trigger_put_loop cap false level ws).succeeded
      ++ (PriorityPool.trigger_put_loop cap false level ws).pending ~ ws) ∧
    (PriorityPool.trigger_put_loop cap false level ws).succeeded.Pairwise
      (le ltPrio) ∧
    (∀ p ∈ (PriorityPool.trigger_put_loop cap false level ws).pending,
      ∀ q ∈ (PriorityPool.trigger_put_loop cap false level ws).succeeded,
        le ltPrio q p) ∧
    IsHeap ltPrio (PriorityPool.trigger_put_loop cap false level ws).pending ∧
    (¬ (PriorityPool.trigger_put_loop cap false level ws).pending = [] →
      ¬ putFits cap (PriorityPool.trigger_put_loop cap false level ws).level
        (((PriorityPool.trigger_put_loop cap false level ws).pending.getD 0
          default).amount)) := by
  intro ws
  generalize hm : ws.length = m
  induction m using Nat.strong_induction_on generalizing ws with
  | _ m ih =>
    intro level hH
    rw [PriorityPool.trigger_put_loop]
    split
    · rename_i hemp
      have : ws = [] := List.isEmpty_iff.mp hemp
      subst this
      exact ⟨rfl, by simp, by simp, by simp, by intro j hj _; simp at hj,
        by simp⟩
    · rename_i hemp
      split
      · rename_i hcond
        split
        · rename_i r rest heq
          dsimp only
          have hlen := length_heappop ltPrio ws r rest heq
          have hperm := heappop_perm ltPrio ws r rest heq
          have hroot := heappop_root ltPrio ws r rest heq
          have hrest := heappop_isHeap ltPrio ltPrio_asym ltPrio_letrans
            ws r rest hH heq
          obtain ⟨iho, ihperm, ihsort, ihps, ihheap, ihhead⟩ :=
            ih rest.length (by omega) rest rfl (level + r.amount) hrest
          have hrmin : ∀ y ∈ rest, le ltPrio r y := by
            intro y hy
            have hyws : y ∈ ws := hperm.mem_iff.mp (List.mem_cons_of_mem r hy)
            have := isHeap_root_min_mem ltPrio ltPrio_asym ltPrio_letrans
              ws hH y hyws
            rwa [← hroot] at this
          refine ⟨iho, ?_, ?_, ?_, ihheap, ihhead⟩
          · calc (r :: (PriorityPool.trigger_put_loop cap false
                  (level + r.amount) rest).succeeded)
                ++ (PriorityPool.trigger_put_loop cap false
                  (level + r.amount) rest).pending
                = r :: ((PriorityPool.trigger_put_loop cap false
                    (level + r.amount) rest).succeeded
                  ++ (PriorityPool.trigger_put_loop cap false
                    (level + r.amount) rest).pending) := rfl
              _ ~ r :: rest := Perm.cons r ihperm
              _ ~ ws := hperm
          · refine List.Pairwise.cons ?_ ihsort
            intro y hy
            have hyrest : y ∈ rest := ihperm.mem_iff.mp
              (List.mem_append_left _ hy)
            exact hrmin y hyrest
          · intro p hp q hq
            rcases List.mem_cons.mp hq with rfl | hq2
            · have hprest : p ∈ rest := ihperm.mem_iff.mp
                (List.mem_append_right _ hp)
              exact hrmin p hprest
            · exact ihps p hp q hq2
        · rename_i heq
          rw [heappop_none_iff] at heq
          exact absurd (List.isEmpty_iff.mpr heq) hemp
      · rename_i hcond
        refine ⟨rfl, by simp, by simp, by simp, hH, fun _ => hcond⟩

theorem pp_get_loop_spec {α : Type} [LinearOrderedCommRing α] :
    ∀ (ws : List (PrioWaiter α)) (level : α), IsHeap ltPrio ws →
    ((PriorityPool.trigger_get_loop level ws).2.2
      ++ (PriorityPool.trigger_get_loop level ws).2.1 ~ ws) ∧
    (PriorityPool.trigger_get_loop level ws).2.2.Pairwise (le ltPrio) ∧
    (∀ p ∈ (PriorityPool.trigger_get_loop level ws).2.1,
      ∀ q ∈ (PriorityPool.trigger_get_loop level ws).2.2, le ltPrio q p) ∧
    IsHeap ltPrio (PriorityPool.trigger_get_loop level ws).2.1 ∧
    (¬ (PriorityPool.trigger_get_loop level ws).2.1 = [] →
      ¬ (((PriorityPool.trigger_get_loop level ws).2.1.getD 0
          default).amount ≤ (PriorityPool.trigger_get_loop level ws).1)) := by
  intro ws
  generalize hm : ws.length = m
  induction m using Nat.strong_induction_on generalizing ws with
  | _ m ih =>
    intro level hH
    rw [PriorityPool.trigger_get_loop]
    split
    · rename_i hemp
      have : ws = [] := List.isEmpty_iff.mp hemp
      subst this
      exact ⟨by simp, by simp, by simp, by intro j hj _; simp at hj, by simp⟩
    · rename_i hemp
      split
      · rename_i hcond
        split
        · rename_i r rest heq
          dsimp only
          have hlen := length_heappop ltPrio ws r rest heq
          have hperm := heappop_perm ltPrio ws r rest heq
          have hroot := heappop_root ltPrio ws r rest heq
          have hrest := heappop_isHeap ltPrio ltPrio_asym ltPrio_letrans
            ws r rest hH heq
          obtain ⟨ihperm, ihsort, ihps, ihheap, ihhead⟩ :=
            ih rest.length (by omega) rest rfl (level - r.amount) hrest
          have hrmin : ∀ y ∈ rest, le ltPrio r y := by
            intro y hy
            have hyws : y ∈ ws := hperm.mem_iff.mp (List.mem_cons_of_mem r hy)
            have := isHeap_root_min_mem ltPrio ltPrio_asym ltPrio_letrans
              ws hH y hyws
            rwa [← hroot] at this
          refine ⟨?_, ?_, ?_, ihheap, ihhead⟩
          · calc (r :: (PriorityPool.trigger_get_loop
                  (level - r.amount) rest).2.2)
                ++ (PriorityPool.trigger_get_loop
                  (level - r.amount) rest).2.1
                = r :: ((PriorityPool.trigger_get_loop
                    (level - r.amount) rest).2.2
                  ++ (PriorityPool.trigger_get_loop
                    (level - r.amount) rest).2.1) := rfl
              _ ~ r :: rest := Perm.cons r ihperm
              _ ~ ws := hperm
          · refine List.Pairwise.cons ?_ ihsort
            intro y hy
            exact hrmin y (ihperm.mem_iff.mp (List.mem_append_left _ hy))
          · intro p hp q hq
            rcases List.mem_cons.mp hq with rfl | hq2
            · exact hrmin p (ihperm.mem_iff.mp (List.mem_append_right _ hp))
            · exact ihps p hp q hq2
        · rename_i heq
          rw [heappop_none_iff] at heq
          exact absurd (List.isEmpty_iff.mpr heq) hemp
      · rename_i hcond
        exact ⟨by simp, by simp, by simp, hH, fun _ => hcond⟩

/-! ## Claim theorems -/

/-- Counterexample to C1 as stated: on a plain `Pool` (capacity 10, level
8, `hard_cap = False`) the trigger cycle does NOT stop at the first
unfulfillable waiter.  `put(5)` (event 1) pends; a later `put(2)` (event
2) succeeds immediately while event 1 is still pending, because
`Pool._trigger_put` skips past the unfulfillable waiter (`idx += 1`)
instead of stopping. -/
theorem c1_counterexample :
    Pool.put (Pool.make (some (10 : Int)) 8 false) 1 5
      = .ok ⟨some 10, 8, false, [⟨1, 5⟩], [], [], [], []⟩ ∧
    Pool.put (⟨some 10, 8, false, [⟨1, 5⟩], [], [], [], []⟩ :
        PoolState Int) 2 2
      = .ok ⟨some 10, 10, false, [⟨1, 5⟩], [], [], [], [2]⟩ ∧
    (2 : Nat) ∈ ([2] : List Nat) ∧ (1 : Nat) ∉ ([2] : List Nat) := by
  decide

/-- C1 (amended): a plain `Pool` trigger cycle with `hard_cap = False`
scans the WHOLE waiter list, skipping each waiter that does not fit and
fulfilling every waiter that fits at its scan moment — so a later-inserted
waiter may succeed while an earlier one stays pending.  What does hold: no
overflow is raised; the pending and succeeded waiters are subsequences of
the original list (relative order preserved); the level moves by exactly
the sum of the succeeded amounts; and every waiter left pending does not
fit (put) / is not covered (get) at the final level. -/
theorem c1_amended {α : Type} [LinearOrderedCommRing α] (cap : Option α)
    (level : α) (ws : List (PoolWaiter α))
    (hpos : ∀ w ∈ ws, 0 < w.amount) :
    (Pool.trigger_put_loop cap false level ws).overflow = false ∧
    (Pool.trigger_put_loop cap false level ws).pending.Sublist ws ∧
    (Pool.trigger_put_loop cap false level ws).succeeded.Sublist ws ∧
    (Pool.trigger_put_loop cap false level ws).level
      = level + ((Pool.trigger_put_loop cap false level ws).succeeded.map
          PoolWaiter.amount).sum ∧
    (∀ w ∈ (Pool.trigger_put_loop cap false level ws).pending,
      ¬ putFits cap (Pool.trigger_put_loop cap false level ws).level
        w.amount) ∧
    (Pool.trigger_get_loop level ws).2.1.Sublist ws ∧
    (Pool.trigger_get_loop level ws).2.2.Sublist ws ∧
    (Pool.trigger_get_loop level ws).1
      = level - ((Pool.trigger_get_loop level ws).2.2.map
          PoolWaiter.amount).sum ∧
    (∀ w ∈ (Pool.trigger_get_loop level ws).2.1,
      ¬ (w.amount ≤ (Pool.trigger_get_loop level ws).1)) := by
  obtain ⟨p1, p2, p3⟩ := pool_put_loop_spec cap false ws level
  obtain ⟨g1, g2, g3⟩ := pool_get_loop_spec ws level
  exact ⟨pool_put_loop_no_overflow cap ws level, p1, p2, p3,
    pool_put_loop_pending_unfit cap ws level hpos, g1, g2, g3,
    pool_get_loop_pending_unfit ws level hpos⟩

theorem c1_amended_witness :
    (∀ w ∈ ([⟨1, 5⟩, ⟨2, 2⟩] : List (PoolWaiter Int)), 0 < w.amount) ∧
    ((Pool.trigger_put_loop (some (10 : Int)) false 8
        [⟨1, 5⟩, ⟨2, 2⟩]).overflow = false ∧
    (Pool.trigger_put_loop (some (10 : Int)) false 8
        [⟨1, 5⟩, ⟨2, 2⟩]).pending.Sublist [⟨1, 5⟩, ⟨2, 2⟩] ∧
    (Pool.trigger_put_loop (some (10 : Int)) false 8
        [⟨1, 5⟩, ⟨2, 2⟩]).succeeded.Sublist [⟨1, 5⟩, ⟨2, 2⟩] ∧
    (Pool.trigger_put_loop (some (10 : Int)) false 8 [⟨1, 5⟩, ⟨2, 2⟩]).level
      = 8 + ((Pool.trigger_put_loop (some (10 : Int)) false 8
          [⟨1, 5⟩, ⟨2, 2⟩]).succeeded.map PoolWaiter.amount).sum ∧
    (∀ w ∈ (Pool.trigger_put_loop (some (10 : Int)) false 8
        [⟨1, 5⟩, ⟨2, 2⟩]).pending,
      ¬ putFits (some 10)
        (Pool.trigger_put_loop (some (10 : Int)) false 8
          [⟨1, 5⟩, ⟨2, 2⟩]).level w.amount) ∧
    (Pool.trigger_get_loop (8 : Int) [⟨1, 5⟩, ⟨2, 2⟩]).2.1.Sublist
      [⟨1, 5⟩, ⟨2, 2⟩] ∧
    (Pool.trigger_get_loop (8 : Int) [⟨1, 5⟩, ⟨2, 2⟩]).2.2.Sublist
      [⟨1, 5⟩, ⟨2, 2⟩] ∧
    (Pool.trigger_get_loop (8 : Int) [⟨1, 5⟩, ⟨2, 2⟩]).1
      = 8 - ((Pool.trigger_get_loop (8 : Int) [⟨1, 5⟩, ⟨2, 2⟩]).2.2.map
          PoolWaiter.amount).sum ∧
    (∀ w ∈ (Pool.trigger_get_loop (8 : Int) [⟨1, 5⟩, ⟨2, 2⟩]).2.1,
      ¬ (w.amount ≤ (Pool.trigger_get_loop (8 : Int)
        [⟨1, 5⟩, ⟨2, 2⟩]).1))) :=
  ⟨by decide, c1_amended (some 10) 8 [⟨1, 5⟩, ⟨2, 2⟩] (by decide)⟩

/-- Counterexample to C2 as stated: on a `hard_cap` Pool (capacity 20) a
failing put can change the level.  Trace: `put(15)` fills to 15;
`put(10)` raises Overflow and its waiter stays pending; `get(8)` drops
the level to 7 (the get event's `_trigger_put` callback is only
scheduled, not yet run); `put(16)` — whose amount 16 exceeds the
remaining capacity 13 — raises Overflow, but first fulfills the stale
pending `put(10)` waiter, leaving the level at 17, not at the pre-call
7. -/
theorem c2_counterexample :
    Pool.put (Pool.make (some (20 : Int)) 0 true) 1 15
      = .ok ⟨some 20, 15, true, [], [], [], [], [1]⟩ ∧
    Pool.put (⟨some 20, 15, true, [], [], [], [], [1]⟩ : PoolState Int) 2 10
      = .error (.overflow ⟨some 20, 15, true, [⟨2, 10⟩], [], [], [], [1]⟩) ∧
    Pool.get (⟨some 20, 15, true, [⟨2, 10⟩], [], [], [], [1]⟩ :
        PoolState Int) 3 8
      = .ok ⟨some 20, 7, true, [⟨2, 10⟩], [], [], [], [1, 3]⟩ ∧
    ¬ putFits (some (20 : Int)) 7 16 ∧
    Pool.put (⟨some 20, 7, true, [⟨2, 10⟩], [], [], [], [1, 3]⟩ :
        PoolState Int) 4 16
      = .error (.overflow
          ⟨some 20, 17, true, [⟨4, 16⟩], [], [], [], [1, 3, 2]⟩) ∧
    (17 : Int) ≠ 7 := by
  decide

/-- C2 (amended): on a `hard_cap` Queue, a put while the queue is full
raises Overflow synchronously out of the put call and leaves `items`
exactly unchanged (nothing is enqueued or succeeded).  On a `hard_cap`
Pool the same holds provided no earlier put waiters are pending at the
call; in general only the failing put's own amount is guaranteed not to
be applied, since stale earlier waiters fulfilled in the same cycle may
change the level (see the counterexample). -/
theorem c2_amended {α : Type} [LinearOrderedCommRing α] (s : PoolState α)
    (sq : QueueState α Nat) (id : Nat) (amount : α) (item : Nat)
    (hp1 : s.put_waiters = []) (hp2 : s.hard_cap = true)
    (hp3 : amountValid s.capacity amount)
    (hp4 : ¬ putFits s.capacity s.level amount)
    (hq1 : sq.hard_cap = true)
    (hq2 : ¬ queueHasRoom sq.capacity sq.items.length) :
    (∃ s2, Pool.put s id amount = .error (.overflow s2) ∧
      s2.level = s.level ∧ s2.put_waiters = [⟨id, amount⟩] ∧
      s2.get_waiters = s.get_waiters ∧ s2.triggered = s.triggered) ∧
    (∃ sq2, Queue.put sq id item = .error sq2 ∧
      sq2.items = sq.items ∧
      sq2.put_waiters = sq.put_waiters ++ [(id, item)] ∧
      sq2.triggered = sq.triggered ∧ sq2.got = sq.got) := by
  constructor
  · unfold Pool.put Pool.trigger_put
    rw [if_pos hp3, hp1]
    dsimp only
    rw [List.nil_append, Pool.trigger_put_loop]
    rw [if_neg hp4, hp2, if_pos rfl]
    exact ⟨_, rfl, rfl, rfl, rfl, by simp⟩
  · unfold Queue.put Queue.trigger_put_with
    dsimp only
    rcases hx : sq.put_waiters ++ [(id, item)] with _ | ⟨w, ws⟩
    · exact absurd hx (by simp)
    · rw [Queue.trigger_put_loop]
      rw [if_neg hq2, hq1, if_pos rfl]
      exact ⟨_, rfl, rfl, rfl, by simp, rfl⟩

theorem c2_amended_witness :
    ((⟨some 5, 5, true, [], [], [], [], []⟩ : PoolState Int).put_waiters
        = [] ∧ amountValid (some (5 : Int)) 1 ∧
      ¬ putFits (some (5 : Int)) 5 1 ∧
      ¬ queueHasRoom (some (1 : Int)) 1) ∧
    ((∃ s2, Pool.put (⟨some 5, 5, true, [], [], [], [], []⟩ : PoolState Int)
        9 1 = .error (.overflow s2) ∧
      s2.level = (⟨some 5, 5, true, [], [], [], [], []⟩ :
        PoolState Int).level ∧
      s2.put_waiters = [⟨9, 1⟩] ∧
      s2.get_waiters = (⟨some 5, 5, true, [], [], [], [], []⟩ :
        PoolState Int).get_waiters ∧
      s2.triggered = (⟨some 5, 5, true, [], [], [], [], []⟩ :
        PoolState Int).triggered) ∧
    (∃ sq2, Queue.put (⟨some 1, true, [7], [], [], [], []⟩ :
        QueueState Int Nat) 9 7 = .error sq2 ∧
      sq2.items = (⟨some 1, true, [7], [], [], [], []⟩ :
        QueueState Int Nat).items ∧
      sq2.put_waiters = (⟨some 1, true, [7], [], [], [], []⟩ :
        QueueState Int Nat).put_waiters ++ [(9, 7)] ∧
      sq2.triggered = (⟨some 1, true, [7], [], [], [], []⟩ :
        QueueState Int Nat).triggered ∧
      sq2.got = (⟨some 1, true, [7], [], [], [], []⟩ :
        QueueState Int Nat).got)) :=
  ⟨⟨rfl, by decide, by decide, by decide⟩,
    c2_amended ⟨some 5, 5, true, [], [], [], [], []⟩
      ⟨some 1, true, [7], [], [], [], []⟩ 9 1 7 rfl rfl (by decide)
      (by decide) rfl (by decide)⟩

/-- C8: on both `Pool` and `PriorityPool`, `put(amount)` and
`get(amount)` with an amount outside `(0, capacity]` raise `ValueError`
synchronously.  The check precedes every mutation in
`Pool{Put,Get}Event.__init__` / `PriorityPool{Put,Get}Event.__init__`, so
the error result carries no successor state: the pool's level and waiter
lists are untouched. -/
theorem c8_invalid_amount {α : Type} [LinearOrderedCommRing α]
    (s : PoolState α) (sp : PriorityPoolState α) (id : Nat) (amount : α)
    (priority : Int)
    (h : ¬ amountValid s.capacity amount)
    (hp : ¬ amountValid sp.capacity amount) :
    Pool.put s id amount = .error .invalid ∧
    Pool.get s id amount = .error .invalid ∧
    PriorityPool.put sp id amount priority = .error .invalid ∧
    PriorityPool.get sp id amount priority = .error .invalid := by
  refine ⟨?_, ?_, ?_, ?_⟩
  · unfold Pool.put
    rw [if_neg h]
  · unfold Pool.get
    rw [if_neg h]
  · unfold PriorityPool.put
    rw [if_neg hp]
  · unfold PriorityPool.get
    rw [if_neg hp]

theorem c8_invalid_amount_witness :
    (¬ amountValid (some (5 : Int)) 0 ∧ ¬ amountValid (some (5 : Int)) 6) ∧
    (Pool.put (Pool.make (some (5 : Int)) 0 true) 1 0 = .error .invalid ∧
    Pool.get (Pool.make (some (5 : Int)) 0 true) 1 0 = .error .invalid ∧
    PriorityPool.put (PriorityPool.make (some (5 : Int)) 0 true) 1 0 2
      = .error .invalid ∧
    PriorityPool.get (PriorityPool.make (some (5 : Int)) 0 true) 1 0 2
      = .error .invalid) :=
  ⟨⟨by decide, by decide⟩,
    c8_invalid_amount (Pool.make (some 5) 0 true)
      (PriorityPool.make (some 5) 0 true) 1 0 2 (by decide) (by decide)⟩

/-- C9: when a put on a `hard_cap` Pool raises Overflow, the failed put
event stays in `_put_waiters` (the append done in `PoolPutEvent.__init__`
is not rolled back), so it can be fulfilled by a later trigger cycle.
The closed trace in the second conjunct shows this happening: on a full
pool (capacity 10), `put(5)` raises Overflow and stays pending; after
`get(10)` frees capacity, the get event's deferred `_trigger_put`
callback fulfills the previously rejected `put(5)`. -/
theorem c9_overflow_waiter_stays {α : Type} [LinearOrderedCommRing α]
    (s : PoolState α) (id : Nat) (amount : α) (s2 : PoolState α)
    (h : Pool.put s id amount = .error (.overflow s2)) :
    PoolWaiter.mk id amount ∈ s2.put_waiters ∧
    (Pool.put (Pool.make (some (10 : Int)) 0 true) 1 10
      = .ok ⟨some 10, 10, true, [], [], [], [], [1]⟩ ∧
    Pool.put (⟨some 10, 10, true, [], [], [], [], [1]⟩ : PoolState Int) 2 5
      = .error (.overflow ⟨some 10, 10, true, [⟨2, 5⟩], [], [], [], [1]⟩) ∧
    Pool.get (⟨some 10, 10, true, [⟨2, 5⟩], [], [], [], [1]⟩ :
        PoolState Int) 3 10
      = .ok ⟨some 10, 0, true, [⟨2, 5⟩], [], [], [], [1, 3]⟩ ∧
    Pool.trigger_put (⟨some 10, 0, true, [⟨2, 5⟩], [], [], [], [1, 3]⟩ :
        PoolState Int)
      = .ok ⟨some 10, 5, true, [], [], [], [], [1, 3, 2]⟩ ∧
    (2 : Nat) ∈ ([1, 3, 2] : List Nat)) := by
  refine ⟨?_, by decide, by decide, by decide, by decide, by decide⟩
  unfold Pool.put at h
  by_cases hval : amountValid s.capacity amount
  · rw [if_pos hval] at h
    rcases h2 : Pool.trigger_put
        { s with put_waiters := s.put_waiters ++ [⟨id, amount⟩] }
      with s4 | s4
    · rw [h2] at h
      simp only [Except.error.injEq, PoolErr.overflow.injEq] at h
      subst h
      unfold Pool.trigger_put at h2
      dsimp only at h2
      split at h2
      · rename_i hov
        simp only [Except.error.injEq] at h2
        subst h2
        dsimp only
        cases hhc : s.hard_cap with
        | false =>
          rw [hhc, pool_put_loop_no_overflow] at hov
          exact absurd hov (by simp)
        | true =>
          rw [hhc] at hov
          exact pool_put_loop_overflow_mem s.capacity s.put_waiters
            ⟨id, amount⟩ s.level hov
      · exact absurd h2 (by simp)
    · rw [h2] at h
      exact absurd h (by simp)
  · rw [if_neg hval] at h
    exact absurd h (by simp)

theorem c9_overflow_waiter_stays_witness :
    (Pool.put (⟨some 10, 10, true, [], [], [], [], [1]⟩ : PoolState Int) 2 5
      = .error (.overflow ⟨some 10, 10, true, [⟨2, 5⟩], [], [], [], [1]⟩)) ∧
    (PoolWaiter.mk 2 (5 : Int)
        ∈ (⟨some 10, 10, true, [⟨2, 5⟩], [], [], [], [1]⟩ :
          PoolState Int).put_waiters ∧
    (Pool.put (Pool.make (some (10 : Int)) 0 true) 1 10
      = .ok ⟨some 10, 10, true, [], [], [], [], [1]⟩ ∧
    Pool.put (⟨some 10, 10, true, [], [], [], [], [1]⟩ : PoolState Int) 2 5
      = .error (.overflow ⟨some 10, 10, true, [⟨2, 5⟩], [], [], [], [1]⟩) ∧
    Pool.get (⟨some 10, 10, true, [⟨2, 5⟩], [], [], [], [1]⟩ :
        PoolState Int) 3 10
      = .ok ⟨some 10, 0, true, [⟨2, 5⟩], [], [], [], [1, 3]⟩ ∧
    Pool.trigger_put (⟨some 10, 0, true, [⟨2, 5⟩], [], [], [], [1, 3]⟩ :
        PoolState Int)
      = .ok ⟨some 10, 5, true, [], [], [], [], [1, 3, 2]⟩ ∧
    (2 : Nat) ∈ ([1, 3, 2] : List Nat))) :=
  ⟨by decide, c9_overflow_waiter_stays
    ⟨some 10, 10, true, [], [], [], [], [1]⟩ 2 5
    ⟨some 10, 10, true, [⟨2, 5⟩], [], [], [], [1]⟩ (by decide)⟩

/-- C10: `Queue.peek()` evaluates `self.items[0]`, so it raises
`IndexError` exactly when `is_empty` holds; on a non-empty queue it
returns the head item without touching the state (`peek` performs no
mutation), and for a `PriorityQueue` — whose `items` list satisfies the
heap invariant — that head is a minimal item under the comparison
order. -/
theorem c10_peek {α β : Type} [Inhabited β] (ltI : β → β → Bool)
    (hA : Asym ltI) (hT : LeTrans ltI) (s : QueueState α β) :
    (Queue.peek s = .error () ↔ Queue.is_empty s) ∧
    (∀ x t, s.items = x :: t → Queue.peek s = .ok x) ∧
    (IsHeap ltI s.items → ∀ x, Queue.peek s = .ok x →
      ∀ y ∈ s.items, le ltI x y) := by
  refine ⟨?_, ?_, ?_⟩
  · unfold Queue.peek Queue.is_empty
    cases hi : s.items with
    | nil => simp
    | cons x t => simp
  · intro x t hxt
    unfold Queue.peek
    rw [hxt]
  · intro hH x hx y hy
    unfold Queue.peek at hx
    cases hi : s.items with
    | nil => rw [hi] at hx; exact absurd hx (by simp)
    | cons z t =>
      rw [hi] at hx
      simp only [Except.ok.injEq] at hx
      subst hx
      have := isHeap_root_min_mem ltI hA hT s.items hH y hy
      rw [hi] at this
      exact this

theorem c10_peek_witness :
    Asym ltPriorityItem ∧
    ((Queue.peek (⟨none, false, [⟨1, 10⟩, ⟨2, 20⟩], [], [], [], []⟩ :
        QueueState Int PriorityItem) = .error ()
      ↔ Queue.is_empty (⟨none, false, [⟨1, 10⟩, ⟨2, 20⟩], [], [], [], []⟩ :
        QueueState Int PriorityItem)) ∧
    (∀ x t, (⟨none, false, [⟨1, 10⟩, ⟨2, 20⟩], [], [], [], []⟩ :
        QueueState Int PriorityItem).items = x :: t →
      Queue.peek (⟨none, false, [⟨1, 10⟩, ⟨2, 20⟩], [], [], [], []⟩ :
        QueueState Int PriorityItem) = .ok x) ∧
    (IsHeap ltPriorityItem (⟨none, false, [⟨1, 10⟩, ⟨2, 20⟩], [], [], [],
        []⟩ : QueueState Int PriorityItem).items →
      ∀ x, Queue.peek (⟨none, false, [⟨1, 10⟩, ⟨2, 20⟩], [], [], [], []⟩ :
        QueueState Int PriorityItem) = .ok x →
      ∀ y ∈ (⟨none, false, [⟨1, 10⟩, ⟨2, 20⟩], [], [], [], []⟩ :
        QueueState Int PriorityItem).items, le ltPriorityItem x y)) :=
  ⟨ltPriorityItem_asym, c10_peek ltPriorityItem
    ltPriorityItem_asym ltPriorityItem_letrans
    ⟨none, false, [⟨1, 10⟩, ⟨2, 20⟩], [], [], [], []⟩⟩

/-- Counterexample to C3 as stated: cancelling an already-cancelled (so
non-pending, never-fired) event is NOT a no-op.  `put(5)` on a pool at
level 8 of capacity 10 leaves a pending waiter; the first `cancel()`
removes it; the second `cancel()` runs `self.pool._put_waiters.remove(self)`
on a list that no longer contains the event, which raises `ValueError`. -/
theorem c3_counterexample :
    Pool.put (Pool.make (some (10 : Int)) 8 false) 1 5
      = .ok ⟨some 10, 8, false, [⟨1, 5⟩], [], [], [], []⟩ ∧
    Pool.cancel_put (⟨some 10, 8, false, [⟨1, 5⟩], [], [], [], []⟩ :
        PoolState Int) ⟨1, 5⟩
      = .ok ⟨some 10, 8, false, [], [], [], [], []⟩ ∧
    Pool.cancel_put (⟨some 10, 8, false, [], [], [], [], []⟩ :
        PoolState Int) ⟨1, 5⟩
      = .error () := by
  decide

/-- C3 (amended): for Pool/Queue put, get, and threshold events,
cancelling an event that has already fired is a no-op; cancelling a
pending enqueued event removes it from its owner's waiter list (for
threshold events with a re-`heapify`), so it can never fire again.  But
cancel is NOT idempotent: cancelling a non-fired event that is not in the
waiter list — e.g. one already cancelled — calls `list.remove` on a list
not containing it and raises `ValueError`. -/
theorem c3_amended {α : Type} [LinearOrderedCommRing α] [DecidableEq α]
    (s : PoolState α) (w : PoolWaiter α) (sq : QueueState α Nat)
    (gid : Nat) :
    (w.id ∈ s.triggered →
      Pool.cancel_put s w = .ok s ∧ Pool.cancel_get s w = .ok s ∧
      Pool.cancel_when_at_least s w = .ok s) ∧
    (w.id ∉ s.triggered → w ∈ s.put_waiters →
      Pool.cancel_put s w
        = .ok { s with put_waiters := s.put_waiters.erase w } ∧
      (s.put_waiters.count w = 1 → w ∉ s.put_waiters.erase w)) ∧
    (w.id ∉ s.triggered → w ∉ s.put_waiters →
      Pool.cancel_put s w = .error ()) ∧
    (w.id ∉ s.triggered → w ∈ s.at_least_waiters →
      Pool.cancel_when_at_least s w = .ok
        { s with
          at_least_waiters
            := heapify ltAtLeast (s.at_least_waiters.erase w) } ∧
      (s.at_least_waiters.count w = 1 →
        w ∉ heapify ltAtLeast (s.at_least_waiters.erase w))) ∧
    (w.id ∉ s.triggered → w ∉ s.at_least_waiters →
      Pool.cancel_when_at_least s w = .error ()) ∧
    (gid ∈ sq.triggered → Queue.cancel_get sq gid = .ok sq) ∧
    (gid ∉ sq.triggered → gid ∈ sq.get_waiters →
      Queue.cancel_get sq gid
        = .ok { sq with get_waiters := sq.get_waiters.erase gid } ∧
      (sq.get_waiters.count gid = 1 → gid ∉ sq.get_waiters.erase gid)) ∧
    (gid ∉ sq.triggered → gid ∉ sq.get_waiters →
      Queue.cancel_get sq gid = .error ()) := by
  refine ⟨?_, ?_, ?_, ?_, ?_, ?_, ?_, ?_⟩
  · intro ht
    refine ⟨?_, ?_, ?_⟩
    · unfold Pool.cancel_put
      rw [if_pos ht]
    · unfold Pool.cancel_get
      rw [if_pos ht]
    · unfold Pool.cancel_when_at_least
      rw [if_pos ht]
  · intro ht hm
    constructor
    · unfold Pool.cancel_put
      rw [if_neg ht, if_pos hm]
    · intro hcount
      have := List.count_erase_self w s.put_waiters
      rw [hcount] at this
      exact List.count_eq_zero.mp (by omega)
  · intro ht hm
    unfold Pool.cancel_put
    rw [if_neg ht, if_neg hm]
  · intro ht hm
    constructor
    · unfold Pool.cancel_when_at_least
      rw [if_neg ht, if_pos hm]
    · intro hcount
      have hperm := heapify_perm ltAtLeast (s.at_least_waiters.erase w)
      rw [hperm.mem_iff]
      have := List.count_erase_self w s.at_least_waiters
      rw [hcount] at this
      exact List.count_eq_zero.mp (by omega)
  · intro ht hm
    unfold Pool.cancel_when_at_least
    rw [if_neg ht, if_neg hm]
  · intro ht
    unfold Queue.cancel_get
    rw [if_pos ht]
  · intro ht hm
    constructor
    · unfold Queue.cancel_get
      rw [if_neg ht, if_pos hm]
    · intro hcount
      have := List.count_erase_self gid sq.get_waiters
      rw [hcount] at this
      exact List.count_eq_zero.mp (by omega)
  · intro ht hm
    unfold Queue.cancel_get
    rw [if_neg ht, if_neg hm]

theorem c3_amended_witness :
    ((1 : Nat) ∉ (⟨some 10, 8, false, [⟨1, 5⟩], [⟨2, 3⟩], [⟨4, 9⟩], [],
        [7]⟩ : PoolState Int).triggered ∧
      PoolWaiter.mk 1 (5 : Int)
        ∈ (⟨some 10, 8, false, [⟨1, 5⟩], [⟨2, 3⟩], [⟨4, 9⟩], [], [7]⟩ :
          PoolState Int).put_waiters) ∧
    (((⟨some 10, 8, false, [⟨1, 5⟩], [⟨2, 3⟩], [⟨4, 9⟩], [], [7]⟩ :
        PoolState Int) : PoolState Int).put_waiters.count ⟨1, 5⟩ = 1) ∧
    (PoolWaiter.mk 1 (5 : Int)
        ∉ ((⟨some 10, 8, false, [⟨1, 5⟩], [⟨2, 3⟩], [⟨4, 9⟩], [], [7]⟩ :
          PoolState Int).put_waiters.erase ⟨1, 5⟩)) :=
  ⟨⟨by decide, by decide⟩, by decide,
    ((c3_amended ⟨some 10, 8, false, [⟨1, 5⟩], [⟨2, 3⟩], [⟨4, 9⟩], [], [7]⟩
      ⟨1, 5⟩ ⟨some 10, true, [], [], [], [], []⟩ 3).2.1 (by decide)
      (by decide)).2 (by decide)⟩

theorem amountValid_pos {α : Type} [LinearOrderedCommRing α]
    (cap : Option α) (a : α) (h : amountValid cap a) : 0 < a := by
  cases cap with
  | none => exact h
  | some c => exact h.1

/-- The Pool state invariant of C5: the level is within `[0, capacity]`
and every pending put/get waiter carries a validated amount (the
`PoolPutEvent.__init__` check). -/
def PoolInv {α : Type} [LinearOrderedCommRing α] (s : PoolState α) : Prop :=
  0 ≤ s.level ∧ levelLe s.capacity s.level ∧
  (∀ w ∈ s.put_waiters, amountValid s.capacity w.amount) ∧
  (∀ w ∈ s.get_waiters, amountValid s.capacity w.amount)

instance {α : Type} [LinearOrderedCommRing α] (s : PoolState α) :
    Decidable (PoolInv s) :=
  inferInstanceAs (Decidable (0 ≤ s.level ∧ levelLe s.capacity s.level ∧
    (∀ w ∈ s.put_waiters, amountValid s.capacity w.amount) ∧
    (∀ w ∈ s.get_waiters, amountValid s.capacity w.amount)))

/-- The Queue size invariant of C5: `size <= capacity`. -/
def queueSizeLe {α : Type} [LinearOrderedCommRing α] (cap : Option α)
    (size : Nat) : Prop :=
  match cap with
  | none => True
  | some c => (size : α) ≤ c

instance {α : Type} [LinearOrderedCommRing α] :
    ∀ (cap : Option α) (size : Nat), Decidable (queueSizeLe cap size)
  | none, _ => .isTrue trivial
  | some c, size => inferInstanceAs (Decidable ((size : α) ≤ c))

theorem queue_put_loop_size {α β : Type} [LinearOrderedCommRing α] (n : Nat)
    (hard : Bool) (enq : β → List β → List β)
    (henq : ∀ x l, (enq x l).length = l.length + 1) :
    ∀ (ws : List (Nat × β)) (items : List β), items.length ≤ n →
    (Queue.trigger_put_loop (some ((n : Nat) : α)) hard enq items
      ws).1.length ≤ n := by
  intro ws
  induction ws with
  | nil => intro items h; exact h
  | cons w t ih =>
    intro items h
    rw [Queue.trigger_put_loop]
    split
    · rename_i hroom
      simp only [queueHasRoom, Nat.cast_lt] at hroom
      refine ih (enq w.2 items) ?_
      rw [henq]
      omega
    · split
      · exact h
      · exact h

theorem queue_get_loop_size {β : Type} (deq : List β → β × List β)
    (hdeq : ∀ l, (deq l).2.length ≤ l.length) :
    ∀ (gs : List Nat) (items : List β),
    (Queue.trigger_get_loop deq items gs).1.length ≤ items.length := by
  intro gs
  induction gs with
  | nil => intro items; exact le_refl _
  | cons g t ih =>
    intro items
    rw [Queue.trigger_get_loop]
    split
    · exact le_refl _
    · exact le_trans (ih (deq items).2) (hdeq items)

theorem pool_trigger_put_state {α : Type} [LinearOrderedCommRing α]
    (s s2 : PoolState α)
    (h : Pool.trigger_put s = .ok s2 ∨ Pool.trigger_put s = .error s2) :
    s2 = { s with
      level := (Pool.trigger_put_loop s.capacity s.hard_cap s.level
        s.put_waiters).level
      put_waiters := (Pool.trigger_put_loop s.capacity s.hard_cap s.level
        s.put_waiters).pending
      triggered := s.triggered ++ (Pool.trigger_put_loop s.capacity
        s.hard_cap s.level s.put_waiters).succeeded.map PoolWaiter.id } := by
  unfold Pool.trigger_put at h
  dsimp only at h
  rcases h with h | h <;> split at h <;>
    first
    | (injection h with h3; exact h3.symm)
    | exact Except.noConfusion h

theorem queue_trigger_put_with_state {α β : Type} [LinearOrderedCommRing α]
    (enq : β → List β → List β) (s s2 : QueueState α β)
    (h : Queue.trigger_put_with enq s = .ok s2 ∨
      Queue.trigger_put_with enq s = .error s2) :
    s2 = { s with
      items := (Queue.trigger_put_loop s.capacity s.hard_cap enq s.items
        s.put_waiters).1
      put_waiters := (Queue.trigger_put_loop s.capacity s.hard_cap enq
        s.items s.put_waiters).2.1
      triggered := s.triggered ++ (Queue.trigger_put_loop s.capacity
        s.hard_cap enq s.items s.put_waiters).2.2.1 } := by
  unfold Queue.trigger_put_with at h
  dsimp only at h
  rcases h with h | h <;> split at h <;>
    first
    | (injection h with h3; exact h3.symm)
    | exact Except.noConfusion h

/-- C5 (amended): every Pool operation — put (also when it raises
Overflow), get, the deferred trigger callbacks, and the threshold
subscriptions — preserves `0 <= level <= capacity` (waiters are fulfilled
only when their amount fits the remaining capacity, resp. is available in
the level); and every Queue put/get preserves `size <= capacity`
PROVIDED the capacity is a natural number or infinite.  With a
fractional finite capacity the Queue invariant is NOT preserved (see the
counterexample): `len(items) < capacity` admits one append too many. -/
theorem c5_amended {α : Type} [LinearOrderedCommRing α] (s : PoolState α)
    (id : Nat) (amount : α) (sq : QueueState α Nat) (item : Nat) (n : Nat)
    (hs : PoolInv s)
    (hqcap : sq.capacity = none ∨ sq.capacity = some ((n : Nat) : α))
    (hqsize : queueSizeLe sq.capacity sq.items.length) :
    (∀ s2, Pool.put s id amount = .ok s2 → PoolInv s2) ∧
    (∀ s2, Pool.put s id amount = .error (.overflow s2) → PoolInv s2) ∧
    (∀ s2, Pool.get s id amount = .ok s2 → PoolInv s2) ∧
    (∀ s2, Pool.trigger_put s = .ok s2 → PoolInv s2) ∧
    (∀ s2, Pool.trigger_put s = .error s2 → PoolInv s2) ∧
    PoolInv (Pool.trigger_get s) ∧
    PoolInv (Pool.when_at_least s id amount) ∧
    PoolInv (Pool.when_at_most s id amount) ∧
    (∀ sq2, Queue.put sq id item = .ok sq2 →
      queueSizeLe sq2.capacity sq2.items.length) ∧
    (∀ sq2, Queue.put sq id item = .error sq2 →
      queueSizeLe sq2.capacity sq2.items.length) ∧
    queueSizeLe (Queue.get sq id).capacity
      (Queue.get sq id).items.length := by
  obtain ⟨hs0, hsle, hsput, hsget⟩ := hs
  have hputInv : ∀ (s3 : PoolState α) (s2 : PoolState α),
      PoolInv s3 →
      (Pool.trigger_put s3 = .ok s2 ∨ Pool.trigger_put s3 = .error s2) →
      PoolInv s2 := by
    intro s3 s2 ⟨h0, hle, hput, hget⟩ h2
    have hb := pool_put_loop_bounds s3.capacity s3.hard_cap s3.put_waiters
      s3.level hput h0 hle
    have hsub := (pool_put_loop_spec s3.capacity s3.hard_cap s3.put_waiters
      s3.level).1
    rw [pool_trigger_put_state s3 s2 h2]
    exact ⟨hb.1, hb.2, fun w hw => hput w (hsub.subset hw), hget⟩
  have hq : ∀ sq2, Queue.put sq id item = .ok sq2 ∨ Queue.put sq id item
      = .error sq2 → queueSizeLe sq2.capacity sq2.items.length := by
    intro sq2 h2
    unfold Queue.put at h2
    rw [queue_trigger_put_with_state Queue.enqueue_item _ sq2 h2]
    dsimp only
    rcases hqcap with hc | hc
    · rw [hc]
      trivial
    · rw [hc]
      rw [hc] at hqsize
      simp only [queueSizeLe, Nat.cast_le] at hqsize ⊢
      exact queue_put_loop_size n sq.hard_cap Queue.enqueue_item
        (by intro x l; simp [Queue.enqueue_item])
        (sq.put_waiters ++ [(id, item)]) sq.items hqsize
  refine ⟨?_, ?_, ?_,
    fun s2 h => hputInv s s2 ⟨hs0, hsle, hsput, hsget⟩ (Or.inl h),
    fun s2 h => hputInv s s2 ⟨hs0, hsle, hsput, hsget⟩ (Or.inr h),
    ?_, ?_, ?_,
    fun sq2 h => hq sq2 (Or.inl h), fun sq2 h => hq sq2 (Or.inr h), ?_⟩
  · intro s2 h
    unfold Pool.put at h
    by_cases hval : amountValid s.capacity amount
    · rw [if_pos hval] at h
      rcases h2 : Pool.trigger_put
          { s with put_waiters := s.put_waiters ++ [⟨id, amount⟩] }
        with s4 | s4 <;> rw [h2] at h <;> dsimp only at h
      · exact Except.noConfusion h
      · injection h with h3
        subst h3
        refine hputInv
          { s with put_waiters := s.put_waiters ++ [⟨id, amount⟩] } s4
          ⟨hs0, hsle, ?_, hsget⟩ (Or.inl h2)
        intro w hw
        have hw2 : w ∈ s.put_waiters ++ [⟨id, amount⟩] := hw
        rcases List.mem_append.mp hw2 with hw | hw
        · exact hsput w hw
        · rw [List.mem_singleton.mp hw]
          exact hval
    · rw [if_neg hval] at h
      exact Except.noConfusion h
  · intro s2 h
    unfold Pool.put at h
    by_cases hval : amountValid s.capacity amount
    · rw [if_pos hval] at h
      rcases h2 : Pool.trigger_put
          { s with put_waiters := s.put_waiters ++ [⟨id, amount⟩] }
        with s4 | s4 <;> rw [h2] at h <;> dsimp only at h
      · injection h with h3
        injection h3 with h4
        subst h4
        refine hputInv
          { s with put_waiters := s.put_waiters ++ [⟨id, amount⟩] } s4
          ⟨hs0, hsle, ?_, hsget⟩ (Or.inr h2)
        intro w hw
        have hw2 : w ∈ s.put_waiters ++ [⟨id, amount⟩] := hw
        rcases List.mem_append.mp hw2 with hw | hw
        · exact hsput w hw
        · rw [List.mem_singleton.mp hw]
          exact hval
      · exact Except.noConfusion h
    · rw [if_neg hval] at h
      injection h with h3
      exact PoolErr.noConfusion h3
  · intro s2 h
    unfold Pool.get at h
    by_cases hval : amountValid s.capacity amount
    · rw [if_pos hval] at h
      injection h with h3
      subst h3
      have hget2 : ∀ w ∈ s.get_waiters ++ [⟨id, amount⟩],
          0 < w.amount := by
        intro w hw
        rcases List.mem_append.mp hw with hw | hw
        · exact amountValid_pos _ _ (hsget w hw)
        · rw [List.mem_singleton.mp hw]
          exact amountValid_pos _ _ hval
      have hb := pool_get_loop_bounds (s.get_waiters ++ [⟨id, amount⟩])
        s.level s.capacity hget2 hs0 hsle
      have hsub := (pool_get_loop_spec
        (s.get_waiters ++ [⟨id, amount⟩]) s.level).1
      unfold Pool.trigger_get
      dsimp only
      refine ⟨hb.1, hb.2, hsput, ?_⟩
      intro w hw
      rcases List.mem_append.mp (hsub.subset hw) with hw2 | hw2
      · exact hsget w hw2
      · rw [List.mem_singleton.mp hw2]
        exact hval
    · rw [if_neg hval] at h
      exact Except.noConfusion h
  · have hget2 : ∀ w ∈ s.get_waiters, 0 < w.amount :=
      fun w hw => amountValid_pos _ _ (hsget w hw)
    have hb := pool_get_loop_bounds s.get_waiters s.level s.capacity hget2
      hs0 hsle
    have hsub := (pool_get_loop_spec s.get_waiters s.level).1
    unfold Pool.trigger_get
    dsimp only
    exact ⟨hb.1, hb.2, hsput, fun w hw => hsget w (hsub.subset hw)⟩
  · unfold Pool.when_at_least Pool.trigger_when_at_least
    exact ⟨hs0, hsle, hsput, hsget⟩
  · unfold Pool.when_at_most Pool.trigger_when_at_most
    exact ⟨hs0, hsle, hsput, hsget⟩
  · unfold Queue.get Queue.trigger_get_with
    dsimp only
    have hsz := queue_get_loop_size Queue.dequeue_item
      (by intro l
          simp only [Queue.dequeue_item, List.length_drop]
          omega)
      (sq.get_waiters ++ [id]) sq.items
    rcases hqcap with hc | hc
    · rw [hc]
      trivial
    · rw [hc]
      rw [hc] at hqsize
      simp only [queueSizeLe, Nat.cast_le] at hqsize ⊢
      omega

/-- C5 counterexample: with a fractional capacity `5/2`, a `Queue` built
from the empty queue by three puts reaches size `3 > 5/2`: the room check
`len(self.items) < self.capacity` (`2 < 5/2` holds) admits one append too
many, so `size <= capacity` is NOT preserved by every operation. -/
theorem c5_counterexample :
    ∃ s1 s2 s3 : QueueState ℚ Nat,
      Queue.put (Queue.make (some (5 / 2)) false []) 1 10 = .ok s1 ∧
      Queue.put s1 2 20 = .ok s2 ∧
      Queue.put s2 3 30 = .ok s3 ∧
      queueSizeLe s2.capacity s2.items.length ∧
      ¬ queueSizeLe s3.capacity s3.items.length := by
  refine ⟨⟨some (5 / 2), false, [10], [], [], [1], []⟩,
    ⟨some (5 / 2), false, [10, 20], [], [], [1, 2], []⟩,
    ⟨some (5 / 2), false, [10, 20, 30], [], [], [1, 2, 3], []⟩,
    ?_, ?_, ?_, ?_, ?_⟩
  · norm_num [Queue.make, Queue.put, Queue.trigger_put_with,
      Queue.trigger_put_loop, Queue.enqueue_item, queueHasRoom]
  · norm_num [Queue.put, Queue.trigger_put_with, Queue.trigger_put_loop,
      Queue.enqueue_item, queueHasRoom]
  · norm_num [Queue.put, Queue.trigger_put_with, Queue.trigger_put_loop,
      Queue.enqueue_item, queueHasRoom]
  · norm_num [queueSizeLe]
  · norm_num [queueSizeLe]

/-- Witness: C5 (amended) applied at a concrete integer pool (capacity 10,
level 4, a fitting put of 3) and queue (capacity 3, one item, a get). -/
theorem c5_amended_witness :
    (∀ s2, Pool.put (⟨some 10, 4, false, [], [], [], [], []⟩ :
        PoolState Int) 1 3 = .ok s2 → PoolInv s2) ∧
    queueSizeLe (Queue.get (⟨some 3, false, [7], [], [], [], []⟩ :
        QueueState Int Nat) 2).capacity
      (Queue.get (⟨some 3, false, [7], [], [], [], []⟩ :
        QueueState Int Nat) 2).items.length :=
  ⟨(c5_amended (⟨some 10, 4, false, [], [], [], [], []⟩ : PoolState Int)
      1 3 (⟨some 3, false, [7], [], [], [], []⟩ : QueueState Int Nat) 7 3
      (by decide) (Or.inr (by decide)) (by decide)).1,
   (c5_amended (⟨some 10, 4, false, [], [], [], [], []⟩ : PoolState Int)
      1 3 (⟨some 3, false, [7], [], [], [], []⟩ : QueueState Int Nat) 7 3
      (by decide) (Or.inr (by decide)) (by decide)).2.2.2.2.2.2.2.2.2.2⟩

/-- C6: `when_at_least(n)` succeeds at the first moment `level >= n`
holds: immediately upon construction when `level >= n` already, and not
before while `level < n`; the trigger cycle pops and succeeds waiters
from the heap head while the head's threshold is satisfied, so after a
trigger every satisfied at-least waiter has fired and been removed from
the heap (it fires at most once) and every remaining waiter is strictly
unsatisfied.  Symmetrically for `when_at_most(n)` with `level <= n`. -/
theorem c6_threshold {α : Type} [LinearOrderedCommRing α] (s : PoolState α)
    (id : Nat) (n : α)
    (hL : IsHeap ltAtLeast s.at_least_waiters)
    (hM : IsHeap ltAtMost s.at_most_waiters)
    (hfresh : id ∉ s.triggered)
    (hidsL : ∀ w ∈ s.at_least_waiters, w.id ≠ id)
    (hidsM : ∀ w ∈ s.at_most_waiters, w.id ≠ id) :
    (n ≤ s.level → id ∈ (Pool.when_at_least s id n).triggered) ∧
    (¬ n ≤ s.level → id ∉ (Pool.when_at_least s id n).triggered) ∧
    (∀ w ∈ (Pool.trigger_when_at_least s).at_least_waiters,
      s.level < w.amount) ∧
    (∀ w ∈ s.at_least_waiters, w.amount ≤ s.level →
      w.id ∈ (Pool.trigger_when_at_least s).triggered ∧
      w ∉ (Pool.trigger_when_at_least s).at_least_waiters) ∧
    (s.level ≤ n → id ∈ (Pool.when_at_most s id n).triggered) ∧
    (¬ s.level ≤ n → id ∉ (Pool.when_at_most s id n).triggered) ∧
    (∀ w ∈ (Pool.trigger_when_at_most s).at_most_waiters,
      w.amount < s.level) ∧
    (∀ w ∈ s.at_most_waiters, s.level ≤ w.amount →
      w.id ∈ (Pool.trigger_when_at_most s).triggered ∧
      w ∉ (Pool.trigger_when_at_most s).at_most_waiters) := by
  have hHpL : IsHeap ltAtLeast
      (heappush ltAtLeast s.at_least_waiters ⟨id, n⟩) :=
    heappush_isHeap ltAtLeast ltAtLeast_asym ltAtLeast_letrans
      s.at_least_waiters ⟨id, n⟩ hL
  have hHpM : IsHeap ltAtMost
      (heappush ltAtMost s.at_most_waiters ⟨id, n⟩) :=
    heappush_isHeap ltAtMost ltAtMost_asym ltAtMost_letrans
      s.at_most_waiters ⟨id, n⟩ hM
  have hspecL := at_least_loop_spec
    (heappush ltAtLeast s.at_least_waiters ⟨id, n⟩) s.level hHpL
  have hspecM := at_most_loop_spec
    (heappush ltAtMost s.at_most_waiters ⟨id, n⟩) s.level hHpM
  have hsL := at_least_loop_spec s.at_least_waiters s.level hL
  have hsM := at_most_loop_spec s.at_most_waiters s.level hM
  refine ⟨?_, ?_, ?_, ?_, ?_, ?_, ?_, ?_⟩
  · intro hn
    unfold Pool.when_at_least Pool.trigger_when_at_least
    dsimp only
    have hmem : (⟨id, n⟩ : PoolWaiter α)
        ∈ heappush ltAtLeast s.at_least_waiters ⟨id, n⟩ :=
      (heappush_perm ltAtLeast s.at_least_waiters ⟨id, n⟩).mem_iff.mpr
        (List.mem_append_right _ (List.mem_singleton_self _))
    rcases List.mem_append.mp (hspecL.1.mem_iff.mpr hmem) with h | h
    · exact List.mem_append_right _ (List.mem_map.mpr ⟨⟨id, n⟩, h, rfl⟩)
    · exact absurd hn (not_le.mpr (hspecL.2.2.1 _ h))
  · intro hn hmem2
    unfold Pool.when_at_least Pool.trigger_when_at_least at hmem2
    dsimp only at hmem2
    rcases List.mem_append.mp hmem2 with h | h
    · exact hfresh h
    · obtain ⟨w, hw, hwid⟩ := List.mem_map.mp h
      have hw2 : w ∈ heappush ltAtLeast s.at_least_waiters ⟨id, n⟩ :=
        hspecL.1.mem_iff.mp (List.mem_append_left _ hw)
      rcases List.mem_append.mp
          ((heappush_perm ltAtLeast s.at_least_waiters
            ⟨id, n⟩).mem_iff.mp hw2) with h3 | h3
      · exact hidsL w h3 hwid
      · rw [List.mem_singleton.mp h3] at hw
        exact hn (hspecL.2.1 _ hw)
  · unfold Pool.trigger_when_at_least
    dsimp only
    exact hsL.2.2.1
  · intro w hw hwa
    unfold Pool.trigger_when_at_least
    dsimp only
    refine ⟨?_, fun hmem => absurd hwa (not_le.mpr (hsL.2.2.1 w hmem))⟩
    rcases List.mem_append.mp (hsL.1.mem_iff.mpr hw) with h | h
    · exact List.mem_append_right _ (List.mem_map.mpr ⟨w, h, rfl⟩)
    · exact absurd hwa (not_le.mpr (hsL.2.2.1 w h))
  · intro hn
    unfold Pool.when_at_most Pool.trigger_when_at_most
    dsimp only
    have hmem : (⟨id, n⟩ : PoolWaiter α)
        ∈ heappush ltAtMost s.at_most_waiters ⟨id, n⟩ :=
      (heappush_perm ltAtMost s.at_most_waiters ⟨id, n⟩).mem_iff.mpr
        (List.mem_append_right _ (List.mem_singleton_self _))
    rcases List.mem_append.mp (hspecM.1.mem_iff.mpr hmem) with h | h
    · exact List.mem_append_right _ (List.mem_map.mpr ⟨⟨id, n⟩, h, rfl⟩)
    · exact absurd hn (not_le.mpr (hspecM.2.2.1 _ h))
  · intro hn hmem2
    unfold Pool.when_at_most Pool.trigger_when_at_most at hmem2
    dsimp only at hmem2
    rcases List.mem_append.mp hmem2 with h | h
    · exact hfresh h
    · obtain ⟨w, hw, hwid⟩ := List.mem_map.mp h
      have hw2 : w ∈ heappush ltAtMost s.at_most_waiters ⟨id, n⟩ :=
        hspecM.1.mem_iff.mp (List.mem_append_left _ hw)
      rcases List.mem_append.mp
          ((heappush_perm ltAtMost s.at_most_waiters
            ⟨id, n⟩).mem_iff.mp hw2) with h3 | h3
      · exact hidsM w h3 hwid
      · rw [List.mem_singleton.mp h3] at hw
        exact hn (hspecM.2.1 _ hw)
  · unfold Pool.trigger_when_at_most
    dsimp only
    exact hsM.2.2.1
  · intro w hw hwa
    unfold Pool.trigger_when_at_most
    dsimp only
    refine ⟨?_, fun hmem => absurd hwa (not_le.mpr (hsM.2.2.1 w hmem))⟩
    rcases List.mem_append.mp (hsM.1.mem_iff.mpr hw) with h | h
    · exact List.mem_append_right _ (List.mem_map.mpr ⟨w, h, rfl⟩)
    · exact absurd hwa (not_le.mpr (hsM.2.2.1 w h))

/-- Witness: C6 at a concrete integer pool at level 5: a fresh
`when_at_least(2)` fires immediately (`2 <= 5`), and after a trigger
every surviving at-most waiter has its threshold strictly below 5. -/
theorem c6_threshold_witness :
    7 ∈ (Pool.when_at_least
      (⟨some 10, 5, false, [], [], [⟨3, 4⟩, ⟨4, 9⟩], [⟨5, 6⟩], []⟩ :
        PoolState Int) 7 2).triggered ∧
    (∀ w ∈ (Pool.trigger_when_at_most
      (⟨some 10, 5, false, [], [], [⟨3, 4⟩, ⟨4, 9⟩], [⟨5, 6⟩], []⟩ :
        PoolState Int)).at_most_waiters, w.amount < 5) :=
  ⟨(c6_threshold
      (⟨some 10, 5, false, [], [], [⟨3, 4⟩, ⟨4, 9⟩], [⟨5, 6⟩], []⟩ :
        PoolState Int) 7 2 (by decide) (by decide) (by decide) (by decide)
      (by decide)).1 (by decide),
   (c6_threshold
      (⟨some 10, 5, false, [], [], [⟨3, 4⟩, ⟨4, 9⟩], [⟨5, 6⟩], []⟩ :
        PoolState Int) 7 2 (by decide) (by decide) (by decide) (by decide)
      (by decide)).2.2.2.2.2.2.1⟩

/-- C4: PriorityPool fulfills waiters in strict priority order.  If
waiter `B` succeeds in a trigger cycle and some waiter `A` in the heap
has strictly smaller priority, then `A` also succeeded, earlier in the
cycle than `B` (`[A, B]` is a sublist of the chronological succeeded
list) — so `B` never succeeds before or instead of `A`, even when `B`'s
amount fits and `A`'s does not.  The cycle breaks at the first head that
cannot be fulfilled: if any waiter is left pending, the head of the
remaining heap does not fit the remaining capacity (put), resp. exceeds
the level (get). -/
theorem c4_strict_priority {α : Type} [LinearOrderedCommRing α]
    (cap : Option α) (level : α) (ws gws : List (PrioWaiter α))
    (hW : IsHeap ltPrio ws) (hG : IsHeap ltPrio gws) :
    (∀ A ∈ ws,
      ∀ B ∈ (PriorityPool.trigger_put_loop cap false level ws).succeeded,
      A.priority < B.priority →
      [A, B].Sublist
        (PriorityPool.trigger_put_loop cap false level ws).succeeded) ∧
    ((PriorityPool.trigger_put_loop cap false level ws).pending ≠ [] →
      ¬ putFits cap
        (PriorityPool.trigger_put_loop cap false level ws).level
        (((PriorityPool.trigger_put_loop cap false level ws).pending.getD 0
          default).amount)) ∧
    (∀ A ∈ gws,
      ∀ B ∈ (PriorityPool.trigger_get_loop level gws).2.2,
      A.priority < B.priority →
      [A, B].Sublist (PriorityPool.trigger_get_loop level gws).2.2) ∧
    ((PriorityPool.trigger_get_loop level gws).2.1 ≠ [] →
      ¬ (((PriorityPool.trigger_get_loop level gws).2.1.getD 0
          default).amount ≤ (PriorityPool.trigger_get_loop level gws).1)) := by
  have hspec := pp_put_loop_spec cap ws level hW
  have hgspec := pp_get_loop_spec gws level hG
  refine ⟨?_, hspec.2.2.2.2.2, ?_, hgspec.2.2.2.2⟩
  · intro A hA B hB hAB
    have hT : ltPrio A B = true := by
      simp only [ltPrio, decide_eq_true_eq]
      exact Or.inl hAB
    have hA2 : A ∈ (PriorityPool.trigger_put_loop cap false
        level ws).succeeded := by
      rcases List.mem_append.mp (hspec.2.1.mem_iff.mpr hA) with h | h
      · exact h
      · exfalso
        have h2 : ltPrio A B = false := hspec.2.2.2.1 A h B hB
        rw [hT] at h2
        exact Bool.noConfusion h2
    refine pairwise_pair_sublist (le ltPrio) _ hspec.2.2.1 A B hA2 hB
      ?_ ?_
    · intro he
      rw [he] at hAB
      exact lt_irrefl _ hAB
    · intro h
      have h2 : ltPrio A B = false := h
      rw [hT] at h2
      exact Bool.noConfusion h2
  · intro A hA B hB hAB
    have hT : ltPrio A B = true := by
      simp only [ltPrio, decide_eq_true_eq]
      exact Or.inl hAB
    have hA2 : A ∈ (PriorityPool.trigger_get_loop level gws).2.2 := by
      rcases List.mem_append.mp (hgspec.1.mem_iff.mpr hA) with h | h
      · exact h
      · exfalso
        have h2 : ltPrio A B = false := hgspec.2.2.1 A h B hB
        rw [hT] at h2
        exact Bool.noConfusion h2
    refine pairwise_pair_sublist (le ltPrio) _ hgspec.2.1 A B hA2 hB
      ?_ ?_
    · intro he
      rw [he] at hAB
      exact lt_irrefl _ hAB
    · intro h
      have h2 : ltPrio A B = false := h
      rw [hT] at h2
      exact Bool.noConfusion h2

/-- Witness: C4 on an integer PriorityPool heap (capacity 10, level 8)
whose head `A = (priority 0, amount 5)` does not fit (`5 > 10 - 8`) while
`B = (priority 1, amount 1)` would: the cycle breaks at `A`, leaving it
at the head of the pending heap, and `B` does not succeed. -/
theorem c4_strict_priority_witness :
    (∀ A ∈ ([⟨1, 5, 0, 0⟩, ⟨2, 1, 1, 1⟩] : List (PrioWaiter Int)),
      ∀ B ∈ (PriorityPool.trigger_put_loop (some 10) false 8
        [⟨1, 5, 0, 0⟩, ⟨2, 1, 1, 1⟩]).succeeded,
      A.priority < B.priority →
      [A, B].Sublist (PriorityPool.trigger_put_loop (some 10) false 8
        [⟨1, 5, 0, 0⟩, ⟨2, 1, 1, 1⟩]).succeeded) ∧
    ((PriorityPool.trigger_put_loop (some (10 : Int)) false 8
        [⟨1, 5, 0, 0⟩, ⟨2, 1, 1, 1⟩]).pending ≠ [] →
      ¬ putFits (some (10 : Int))
        (PriorityPool.trigger_put_loop (some 10) false 8
          [⟨1, 5, 0, 0⟩, ⟨2, 1, 1, 1⟩]).level
        (((PriorityPool.trigger_put_loop (some 10) false 8
          [⟨1, 5, 0, 0⟩, ⟨2, 1, 1, 1⟩]).pending.getD 0
            default).amount)) :=
  ⟨(c4_strict_priority (some 10) 8 [⟨1, 5, 0, 0⟩, ⟨2, 1, 1, 1⟩] []
      (by decide) (by decide)).1,
   (c4_strict_priority (some 10) 8 [⟨1, 5, 0, 0⟩, ⟨2, 1, 1, 1⟩] []
      (by decide) (by decide)).2.1⟩

/-- Driver: put a finite sequence `xs` into a `PriorityQueue` one item at
a time (all with event id 0). -/
def PriorityQueue.putAll {α β : Type} [LinearOrderedCommRing α]
    [Inhabited β] (ltI : β → β → Bool) :
    QueueState α β → List β → Except (QueueState α β) (QueueState α β)
  | s, [] => .ok s
  | s, x :: xs =>
    match PriorityQueue.put ltI s 0 x with
    | .ok s2 => PriorityQueue.putAll ltI s2 xs
    | .error s2 => .error s2

/-- Driver: perform `n` consecutive `PriorityQueue.get`s (event id 0). -/
def PriorityQueue.getAll {α β : Type} [LinearOrderedCommRing α]
    [Inhabited β] (ltI : β → β → Bool) :
    QueueState α β → Nat → QueueState α β
  | s, 0 => s
  | s, n + 1 => PriorityQueue.getAll ltI (PriorityQueue.get ltI s 0) n

theorem pq_put_step {α β : Type} [LinearOrderedCommRing α] [Inhabited β]
    (ltI : β → β → Bool) (s : QueueState α β) (id : Nat) (x : β)
    (hcap : s.capacity = none) (hpw : s.put_waiters = []) :
    PriorityQueue.put ltI s id x = .ok { s with
      items := heappush ltI s.items x
      put_waiters := []
      triggered := s.triggered ++ [id] } := by
  obtain ⟨cap, hard, items, pw, gw, tr, gt⟩ := s
  dsimp only at hcap hpw
  subst hcap hpw
  rfl

theorem pq_get_step {α β : Type} [LinearOrderedCommRing α] [Inhabited β]
    (ltI : β → β → Bool) (s : QueueState α β) (id : Nat) (r : β)
    (rest : List β) (hgw : s.get_waiters = [])
    (hpop : heappop ltI s.items = some (r, rest)) :
    PriorityQueue.get ltI s id = { s with
      items := rest
      get_waiters := []
      triggered := s.triggered ++ [id]
      got := s.got ++ [(id, r)] } := by
  obtain ⟨cap, hard, items, pw, gw, tr, gt⟩ := s
  dsimp only at hgw hpop
  subst hgw
  have hne : items.isEmpty = false := by
    rcases items with _ | ⟨a, t⟩
    · rw [(heappop_none_iff ltI []).mpr rfl] at hpop
      exact Option.noConfusion hpop
    · rfl
  have hdq : PriorityQueue.dequeue_item ltI items = (r, rest) := by
    simp only [PriorityQueue.dequeue_item, hpop]
  unfold PriorityQueue.get Queue.trigger_get_with
  dsimp only
  rw [List.nil_append]
  rw [Queue.trigger_get_loop]
  rw [if_neg (by simp [hne])]
  dsimp only
  rw [hdq]
  dsimp only
  rw [Queue.trigger_get_loop]
  rfl

theorem pq_putAll_spec {α β : Type} [LinearOrderedCommRing α] [Inhabited β]
    (ltI : β → β → Bool) :
    ∀ (xs : List β) (s : QueueState α β), s.capacity = none →
    s.put_waiters = [] →
    ∃ s2, PriorityQueue.putAll ltI s xs = .ok s2 ∧
      s2.items = xs.foldl (heappush ltI) s.items ∧
      s2.capacity = none ∧ s2.put_waiters = [] ∧
      s2.get_waiters = s.get_waiters ∧ s2.got = s.got := by
  intro xs
  induction xs with
  | nil =>
    intro s h1 h2
    exact ⟨s, rfl, rfl, h1, h2, rfl, rfl⟩
  | cons x t ih =>
    intro s h1 h2
    rw [PriorityQueue.putAll]
    rw [pq_put_step ltI s 0 x h1 h2]
    dsimp only
    obtain ⟨s2, heq, hi, hc, hp, hg, hgo⟩ := ih
      { s with items := heappush ltI s.items x
               put_waiters := []
               triggered := s.triggered ++ [0] } h1 rfl
    refine ⟨s2, heq, ?_, hc, hp, hg, hgo⟩
    rw [List.foldl_cons]
    exact hi

theorem pq_getAll_spec {α β : Type} [LinearOrderedCommRing α] [Inhabited β]
    (ltI : β → β → Bool) :
    ∀ (n : Nat) (s : QueueState α β), s.get_waiters = [] →
    s.items.length = n →
    (PriorityQueue.getAll ltI s n).got
      = s.got ++ (heappopAll ltI s.items).map (fun y => ((0 : Nat), y)) := by
  intro n
  induction n with
  | zero =>
    intro s hg hl
    have hnil : s.items = [] := List.length_eq_zero.mp hl
    have h0 : heappopAll ltI ([] : List β) = [] := by
      rw [heappopAll]
      split
      · rfl
      · rename_i r rest h
        rw [(heappop_none_iff ltI []).mpr rfl] at h
        exact Option.noConfusion h
    rw [PriorityQueue.getAll, hnil, h0]
    simp
  | succ n ih =>
    intro s hg hl
    match hpop : heappop ltI s.items with
    | none =>
      rw [heappop_none_iff] at hpop
      rw [hpop] at hl
      simp at hl
    | some (r, rest) =>
      rw [PriorityQueue.getAll]
      rw [pq_get_step ltI s 0 r rest hg hpop]
      have hlen : rest.length = n := by
        have := length_heappop ltI s.items r rest hpop
        omega
      have hrec := ih
        { s with items := rest
                 get_waiters := []
                 triggered := s.triggered ++ [0]
                 got := s.got ++ [(0, r)] } rfl hlen
      rw [hrec]
      dsimp only
      have hpopall : heappopAll ltI s.items = r :: heappopAll ltI rest := by
        rw [heappopAll]
        split
        · rename_i h
          rw [hpop] at h
          exact Option.noConfusion h
        · rename_i r2 rest2 h
          rw [hpop] at h
          injection h with h2
          injection h2 with h3 h4
          subst h3 h4
          rfl
      rw [hpopall]
      simp [List.append_assoc]

/-- C7: for every PriorityQueue and every finite sequence of items put
into it (starting from an empty, unbounded queue), performing as many
gets delivers all the items, in non-decreasing order of their comparison
key: each get dequeues a minimal remaining item via `heappop`. -/
theorem c7_roundtrip {α β : Type} [LinearOrderedCommRing α] [Inhabited β]
    (ltI : β → β → Bool) (hA : Asym ltI) (hT : LeTrans ltI)
    (xs : List β) :
    ∃ s2, PriorityQueue.putAll ltI
        (Queue.make (none : Option α) false []) xs = .ok s2 ∧
      ((PriorityQueue.getAll ltI s2 xs.length).got.map
        Prod.snd).Pairwise (le ltI) ∧
      ((PriorityQueue.getAll ltI s2 xs.length).got.map Prod.snd) ~ xs := by
  obtain ⟨s2, heq, hitems, hcap, hpw, hgw, hgot⟩ :=
    pq_putAll_spec ltI xs (Queue.make (none : Option α) false []) rfl rfl
  have hheap : IsHeap ltI s2.items := by
    rw [hitems]
    refine foldl_heappush_isHeap ltI hA hT xs [] ?_
    intro j hj hj2
    simp at hj
  have hperm : s2.items ~ xs := by
    rw [hitems]
    have h2 := foldl_heappush_perm ltI xs ([] : List β)
    rw [List.nil_append] at h2
    exact h2
  have hlen : s2.items.length = xs.length := hperm.length_eq
  have hgot2 : s2.got = [] := hgot
  have hg := pq_getAll_spec ltI xs.length s2 hgw hlen
  have hmap : ((PriorityQueue.getAll ltI s2 xs.length).got.map Prod.snd)
      = heappopAll ltI s2.items := by
    rw [hg, hgot2, List.nil_append]
    simp
  refine ⟨s2, heq, ?_, ?_⟩
  · rw [hmap]
    exact heappopAll_sorted ltI hA hT s2.items hheap
  · rw [hmap]
    exact (heappopAll_perm ltI s2.items).trans hperm

/-- Witness: C7 on the concrete item sequence with priorities 2, 1, 3:
the three gets return them sorted by priority. -/
theorem c7_roundtrip_witness :
    ∃ s2, PriorityQueue.putAll ltPriorityItem
        (Queue.make (none : Option Int) false [])
        [⟨2, 0⟩, ⟨1, 1⟩, ⟨3, 2⟩] = .ok s2 ∧
      ((PriorityQueue.getAll ltPriorityItem s2
          ([⟨2, 0⟩, ⟨1, 1⟩, ⟨3, 2⟩] : List PriorityItem).length).got.map
        Prod.snd).Pairwise (le ltPriorityItem) ∧
      ((PriorityQueue.getAll ltPriorityItem s2
          ([⟨2, 0⟩, ⟨1, 1⟩, ⟨3, 2⟩] : List PriorityItem).length).got.map
        Prod.snd) ~ [⟨2, 0⟩, ⟨1, 1⟩, ⟨3, 2⟩] :=
  c7_roundtrip ltPriorityItem ltPriorityItem_asym ltPriorityItem_letrans
    [⟨2, 0⟩, ⟨1, 1⟩, ⟨3, 2⟩]

end Desmod
